import Mathlib

/-
  Verification development for the SchemaFinder GraphQL-operation extractor
  (src/schemafinder.js, v1.3.0).

  Strings of the JavaScript program are modelled as `List Char`.  Every
  definition below is translated from the source file `src/schemafinder.js`;
  doc comments cite the line numbers of the construct they embed.  The Babel
  parser/traversal and the file system are external collaborators of the
  engine; their outcomes enter the model as explicit parameters.
-/

set_option maxHeartbeats 1000000

namespace SchemaFinder

/-! ## Character classes

The JavaScript regex class `\s` matches the ASCII whitespace characters
plus the Unicode space separators and the BOM.  `\w` and the explicit
class `[a-zA-Z0-9_]` used by `GQL_PATTERN` (schemafinder.js:20) are ASCII. -/

/-- Characters matched by the JavaScript regex class `\s`. -/
def wsChars : List Char :=
  [' ', '\t', '\n', '\r', '\x0b', '\x0c', '\u00A0', '\u1680',
   '\u2000', '\u2001', '\u2002', '\u2003', '\u2004', '\u2005', '\u2006',
   '\u2007', '\u2008', '\u2009', '\u200A', '\u2028', '\u2029', '\u202F',
   '\u205F', '\u3000', '\uFEFF']

/-- `isWS c` holds iff `c` is matched by the JavaScript regex class `\s`. -/
def isWS (c : Char) : Bool := wsChars.contains c

/-- The character class `[a-zA-Z0-9_]` of `GQL_PATTERN` (schemafinder.js:20),
which coincides with the regex class `\w`. -/
def isWordChar (c : Char) : Bool :=
  ('a' ≤ c && c ≤ 'z') || ('A' ≤ c && c ≤ 'Z') || ('0' ≤ c && c ≤ '9') || c = '_'

/-! ## The signature normalizer

`text.replace(/\s+/g, ' ').trim()` appears verbatim at schemafinder.js:264
(`extractOperation`), :221, :354, :387 and :520 (`processFiles`); it is the
sole deduplication key of the engine. -/

/-- One step of collapsing: a whitespace character merges into a following
space, any other character is kept.  Folding this from the right implements
`replace(/\s+/g, ' ')`: every maximal run of `\s` characters becomes one
space. -/
def wsStep (c : Char) (acc : List Char) : List Char :=
  if isWS c then
    match acc with
    | ' ' :: _ => acc
    | _ => ' ' :: acc
  else c :: acc

/-- `replace(/\s+/g, ' ')`: collapse every run of whitespace (including
newlines) to a single space. -/
def collapseWS (l : List Char) : List Char := l.foldr wsStep []

/-- Drop leading whitespace (the left half of `String.prototype.trim`). -/
def trimLeftWS (l : List Char) : List Char := l.dropWhile isWS

/-- Drop trailing whitespace (the right half of `String.prototype.trim`). -/
def trimRightWS (l : List Char) : List Char := (l.reverse.dropWhile isWS).reverse

/-- `String.prototype.trim`. -/
def trimWS (l : List Char) : List Char := trimRightWS (trimLeftWS l)

/-- The signature normalizer `text.replace(/\s+/g, ' ').trim()`
(schemafinder.js:264, :520). -/
def normalizeSig (l : List Char) : List Char := trimWS (collapseWS l)

/-- The word decomposition of a string: its maximal whitespace-free runs, in
order.  This is the reference point for the normalization contract stated in
the specification. -/
def words : List Char → List (List Char)
  | [] => []
  | c :: cs =>
    if isWS c then words cs
    else
      match cs, words cs with
      | [], _ => [[c]]
      | d :: _, ws' =>
        if isWS d then [c] :: ws'
        else
          match ws' with
          | [] => [[c]]
          | w :: rest => (c :: w) :: rest

/-- Join words with single spaces. -/
def spaceJoin : List (List Char) → List Char
  | [] => []
  | [w] => w
  | w :: ws => w ++ ' ' :: spaceJoin ws

/-! ## Generic string helpers (JavaScript string primitives) -/

/-- `String.prototype.split(sep)` for a one-character separator: JavaScript
keeps empty fields, so the result list is never empty. -/
def splitOnChar (sep : Char) : List Char → List (List Char)
  | [] => [[]]
  | c :: cs =>
    match splitOnChar sep cs with
    | [] => if c = sep then [[], [c]] else [[c]]
    | h :: t => if c = sep then [] :: h :: t else (c :: h) :: t

/-- Does `pat` occur at the head of `s`? (building block, regex literal). -/
def headMatches : List Char → List Char → Bool
  | [], _ => true
  | _ :: _, [] => false
  | p :: ps, c :: cs => p = c && headMatches ps cs

/-- `String.prototype.includes(pat)`: `pat` occurs contiguously in `s`. -/
def containsSub (s pat : List Char) : Bool :=
  match s with
  | [] => pat.isEmpty
  | _ :: cs => headMatches pat s || containsSub cs pat

/-! ## Variable values and the placeholder heuristic -/

/-- A JavaScript value that can appear in a `variables` mapping.
`getDefaultValue` (schemafinder.js:288-295) produces the first five shapes;
`vExt` stands for an opaque caller-supplied JSON value, carrying only its
truthiness (which is all `extractOperation` ever tests of it). -/
inductive JsVal where
  | vStr (s : List Char)
  | vNum (n : Int)
  | vBool (b : Bool)
  | vNull
  | vEmptyArr
  | vExt (truthy : Bool) (tag : Nat)
deriving DecidableEq, Repr

/-- JavaScript truthiness test used by `!variables[varName]`
(schemafinder.js:269): `""`, `0`, `false`, `null`/`undefined` are falsy;
an array (even empty) is truthy. -/
def isFalsy : JsVal → Bool
  | .vStr s => s.isEmpty
  | .vNum n => n = 0
  | .vBool b => !b
  | .vNull => true
  | .vEmptyArr => false
  | .vExt t _ => !t

/-- A `variables` object: insertion-ordered string-keyed mapping. -/
abbrev VarMap := List (List Char × JsVal)

/-- Lookup of `variables[name]`. -/
def varLookup (vs : VarMap) (k : List Char) : Option JsVal :=
  match vs with
  | [] => none
  | (k', v) :: rest => if k' = k then some v else varLookup rest k

/-- Assignment `variables[name] = v`: updates in place (JavaScript objects
keep the original insertion position of an updated key), appends otherwise. -/
def varSet (vs : VarMap) (k : List Char) (v : JsVal) : VarMap :=
  match vs with
  | [] => [(k, v)]
  | (k', v') :: rest =>
    if k' = k then (k', v) :: rest else (k', v') :: varSet rest k v

/-- `getDefaultValue(type)` (schemafinder.js:288-295). -/
def getDefaultValue (ty : List Char) : JsVal :=
  if containsSub ty "String".data then .vStr "sample-string".data
  else if containsSub ty "Int".data || containsSub ty "Float".data then .vNum 0
  else if containsSub ty "Boolean".data then .vBool false
  else if containsSub ty "ID".data then .vStr "123".data
  else if ty.contains '[' then .vEmptyArr
  else .vNull

/-! ## The standard pattern `GQL_PATTERN`

`/(?:query|mutation|subscription|fragment)\s+([a-zA-Z0-9_]+)\s*(?:\(([^)]*)\))?\s*\{[\s\S]*?\}/gs`
(schemafinder.js:20).  The four keywords are mutually non-prefixing, the
character classes `\s`, `[a-zA-Z0-9_]`, `[^)]` on either side of each
boundary are disjoint from the literal that follows, and the body
`[\s\S]*?\}` is lazy, so the backtracking JavaScript engine matches this
pattern deterministically: the matcher below reproduces it piecewise. -/

/-- The keyword alternation, in source order. -/
def gqlKeywords : List (List Char) :=
  ["query".data, "mutation".data, "subscription".data, "fragment".data]

/-- Try the keyword alternatives at the head of `s`; on success return the
keyword and the rest.  At most one alternative can match since no keyword is
a prefix of another. -/
def stripKw (s : List Char) : Option (List Char × List Char) :=
  match gqlKeywords.find? (fun kw => headMatches kw s) with
  | none => none
  | some kw => some (kw, s.drop kw.length)

/-- One match of `GQL_PATTERN`: the whole match and its two capture groups. -/
structure GqlMatch where
  /-- `match[0]`. -/
  full : List Char
  /-- `match[1]`, the operation name (always nonempty when matched). -/
  name : List Char
  /-- `match[2]`, the parenthesized argument list (absent if no parens). -/
  args : Option (List Char)
deriving DecidableEq, Repr

/-- Attempt to match `GQL_PATTERN` anchored at the head of `s`; on success
return the match and the remaining suffix (the continuation point of the
`g`-flag scan).  The full match is assembled from the exact consumed
pieces, ending in the first `}` after the opening brace (the body is lazy). -/
def matchGqlAt (s : List Char) : Option (GqlMatch × List Char) :=
  match stripKw s with
  | none => none
  | some (kw, r1) =>
    let ws1 := r1.takeWhile isWS
    if ws1.isEmpty then none
    else
      let r2 := r1.drop ws1.length
      let nm := r2.takeWhile isWordChar
      if nm.isEmpty then none
      else
        let r3 := r2.drop nm.length
        let ws2 := r3.takeWhile isWS
        let r4 := r3.drop ws2.length
        -- optional `(?:\(([^)]*)\))?`; a `(` without a matching `)` makes
        -- the whole pattern fail at this start position (the classes around
        -- the group admit no other backtracking continuation)
        let parsed : Option (List Char × Option (List Char) × List Char) :=
          match r4 with
          | '(' :: t =>
            let inner := t.takeWhile (fun c => c ≠ ')')
            match t.drop inner.length with
            | ')' :: r5 => some ('(' :: inner ++ [')'], some inner, r5)
            | _ => none
          | _ => some ([], none, r4)
        match parsed with
        | none => none
        | some (parens, args, r5) =>
          let ws3 := r5.takeWhile isWS
          match r5.drop ws3.length with
          | '{' :: b =>
            let body := b.takeWhile (fun c => c ≠ '}')
            match b.drop body.length with
            | '}' :: rem =>
              some ({ full := kw ++ ws1 ++ nm ++ ws2 ++ parens ++ ws3 ++
                              '{' :: body ++ ['}'],
                      name := nm, args := args }, rem)
            | _ => none
          | _ => none

/-- `text.matchAll(GQL_PATTERN)` driver: leftmost scan, continuing after
each match.  `fuel` bounds the recursion; every step consumes at least one
character, so `fuel = s.length` is always sufficient. -/
def gqlMatchAllAux : Nat → List Char → List GqlMatch
  | 0, _ => []
  | fuel + 1, s =>
    match matchGqlAt s with
    | some (m, rem) => m :: gqlMatchAllAux fuel rem
    | none =>
      match s with
      | [] => []
      | _ :: rest => gqlMatchAllAux fuel rest

/-- All matches of `GQL_PATTERN` in `text`, in order. -/
def gqlMatchAll (s : List Char) : List GqlMatch := gqlMatchAllAux s.length s

/-! ## Candidate Operation records and the signature-keyed map -/

/-- A Candidate Operation record as stored in the `operations` map
(schemafinder.js:276-283 and the analogous literals at :222-230, :356-363,
:388-396). -/
structure Op where
  /-- `operation`: the raw extracted text. -/
  operation : List Char
  /-- `name`: declared identifier or generated placeholder. -/
  name : List Char
  /-- The `variables` field: inferred placeholder mapping. -/
  vars : VarMap
  /-- `source`: the concrete file path. -/
  source : List Char
  /-- `origin`: the logical input identity. -/
  origin : List Char
  /-- `context`: the detection strategy tag. -/
  context : List Char
deriving DecidableEq, Repr

/-- The signature-keyed operations map: a JavaScript `Map`, i.e. an
insertion-ordered association list with unique keys. -/
abbrev OpsMap := List (List Char × Op)

/-- `operations.get(sig)` / `operations.has(sig)`. -/
def lookupA : OpsMap → List Char → Option Op
  | [], _ => none
  | (k, v) :: rest, sig => if k = sig then some v else lookupA rest sig

/-- The guarded insertion `if (!operations.has(sig)) operations.set(sig, op)`
used by every extraction site (schemafinder.js:275, :222, :355, :388, :521):
first writer wins, later writers are dropped. -/
def opsInsert (m : OpsMap) (k : List Char) (op : Op) : OpsMap :=
  if (lookupA m k).isSome then m else m ++ [(k, op)]

/-! ## Variable inference inside `extractOperation` -/

/-- `!variables[varName]` (schemafinder.js:269): true when the key is absent
or its value is falsy. -/
def falsyAt (vs : VarMap) (k : List Char) : Bool :=
  match varLookup vs k with
  | none => true
  | some v => isFalsy v

/-- Processing of one entry of the argument list split on commas
(schemafinder.js:267-273): split on `:`, trim both parts, and when both are
nonempty and `!variables[varName]` holds, assign the type-heuristic
placeholder. -/
def inferArgStep (vs : VarMap) (arg : List Char) : VarMap :=
  match (splitOnChar ':' arg).map trimWS with
  | vn :: vt :: _ =>
    if !vn.isEmpty && !vt.isEmpty && falsyAt vs vn then
      varSet vs vn (getDefaultValue vt)
    else vs
  | _ => vs

/-- `if (args) { args.split(',').forEach(...) }` (schemafinder.js:266-273):
the capture group may be absent, and an empty capture is falsy and skipped. -/
def inferFromArgs (vs : VarMap) (args : Option (List Char)) : VarMap :=
  match args with
  | none => vs
  | some a => if a.isEmpty then vs else (splitOnChar ',' a).foldl inferArgStep vs

/-- The brace repair (schemafinder.js:260-262):
`if (!fullMatch.trim().endsWith('}')) fullMatch = fullMatch + '}'`. -/
def repairBrace (m : List Char) : List Char :=
  if (trimWS m).getLast? = some '}' then m else m ++ ['}']

/-! ## `extractOperation` (schemafinder.js:255-286)

All matches of one call share the single JavaScript `variables` object
(the default-initialized parameter), and every stored record holds a
reference to that same object; the value observed when the worker posts its
results is therefore the state of the object after the whole call.  The
model below computes that final state first and attaches it to every record
created by the call, which reproduces the observable behaviour of the
aliasing exactly (the key set evolution is independent of the variables). -/

/-- `extractOperation(text, variables)` run against the map `m`, for worker
input `fp`/`og`: every `GQL_PATTERN` match is brace-repaired, signature-keyed
and inserted first-writer-wins; all records share the final state of the
`variables` object. -/
def extractOperation (fp og text : List Char) (vars0 : VarMap) (m : OpsMap) :
    OpsMap :=
  let ms := gqlMatchAll text
  let finalVars := ms.foldl (fun vs mt => inferFromArgs vs mt.args) vars0
  ms.foldl (fun acc mt =>
    let full := repairBrace mt.full
    opsInsert acc (normalizeSig full)
      { operation := trimWS full, name := mt.name, vars := finalVars,
        source := fp, origin := og, context := "standard".data }) m

/-- Comparison point for the no-mutation-after-creation claim, following the
specification words: each record keeps the `variables` mapping exactly as it
stood when the record was inserted, and is never touched afterwards.  The
code (`extractOperation` above) differs: its records share one mutable
object. -/
def extractOperationSnapshot (fp og text : List Char) (vars0 : VarMap)
    (m : OpsMap) : OpsMap :=
  ((gqlMatchAll text).foldl (fun (st : VarMap × OpsMap) mt =>
    let full := repairBrace mt.full
    let vs := inferFromArgs st.1 mt.args
    (vs, opsInsert st.2 (normalizeSig full)
      { operation := trimWS full, name := mt.name, vars := vs,
        source := fp, origin := og, context := "standard".data }))
    (vars0, m)).2

/-! ## `extractOperationName` and `extractVariablesFromOperation` -/

/-- First match of `/(?:query|mutation|subscription|fragment)\s+([a-zA-Z0-9_]+)/`
(schemafinder.js:203-206), returning the captured name. -/
def extractOperationNameAux : Nat → List Char → Option (List Char)
  | 0, _ => none
  | _ + 1, [] => none
  | fuel + 1, s =>
    (match stripKw s with
     | some (_, r1) =>
       let ws := r1.takeWhile isWS
       if ws.isEmpty then none
       else
         let nm := (r1.drop ws.length).takeWhile isWordChar
         if nm.isEmpty then none else some nm
     | none => none)
    |>.orElse (fun _ => extractOperationNameAux fuel (s.drop 1))

/-- `extractOperationName(gqlString)` (schemafinder.js:203-206); `none`
models the `null` return. -/
def extractOperationName (s : List Char) : Option (List Char) :=
  extractOperationNameAux s.length s

/-- First match of `/\(([^)]*)\)/` (schemafinder.js:240): the content of the
first parenthesized span.  A `(` that is never followed by `)` fails, and no
later start position can succeed either. -/
def firstParenInnerAux : Nat → List Char → Option (List Char)
  | 0, _ => none
  | _ + 1, [] => none
  | fuel + 1, c :: cs =>
    if c = '(' then
      let inner := cs.takeWhile (fun x => x ≠ ')')
      match cs.drop inner.length with
      | ')' :: _ => some inner
      | _ => firstParenInnerAux fuel cs
    else firstParenInnerAux fuel cs

/-- The first parenthesized argument list of an operation text. -/
def firstParenInner (s : List Char) : Option (List Char) :=
  firstParenInnerAux s.length s

/-- First match of `/\$(\w+):\s*(\w+[!\[\]]*)/` against one argument
(schemafinder.js:244): returns the variable name (without `$`) and its type
text.  Note the type capture must open with word characters, so bracketed
list types like `[Int]` do not match here. -/
def dollarArgMatchAux : Nat → List Char → Option (List Char × List Char)
  | 0, _ => none
  | _ + 1, [] => none
  | fuel + 1, c :: cs =>
    if c = '$' then
      let w1 := cs.takeWhile isWordChar
      if w1.isEmpty then dollarArgMatchAux fuel cs
      else
        match cs.drop w1.length with
        | ':' :: t =>
          let t2 := t.dropWhile isWS
          let w2 := t2.takeWhile isWordChar
          if w2.isEmpty then dollarArgMatchAux fuel cs
          else
            let marks := (t2.drop w2.length).takeWhile
              (fun x => x = '!' || x = '[' || x = ']')
            some (w1, w2 ++ marks)
        | _ => dollarArgMatchAux fuel cs
    else dollarArgMatchAux fuel cs

/-- The per-argument `$name: Type` matcher. -/
def dollarArgMatch (s : List Char) : Option (List Char × List Char) :=
  dollarArgMatchAux s.length s

/-- `extractVariablesFromOperation(operation)` (schemafinder.js:237-253). -/
def extractVariablesFromOperation (operation : List Char) : VarMap :=
  match firstParenInner operation with
  | none => []
  | some args =>
    (splitOnChar ',' args).foldl (fun vs arg =>
      match dollarArgMatch arg with
      | some (vn, vt) => varSet vs vn (getDefaultValue vt)
      | none => vs) []

/-! ## Comment extraction (`extractFromComments`, schemafinder.js:297-313) -/

/-- Split `s` at the first occurrence of `pat`, returning the part before and
the part after `pat`; `none` when `pat` does not occur. -/
def splitAtSubAux (pat : List Char) : Nat → List Char → Option (List Char × List Char)
  | 0, _ => none
  | _ + 1, [] => if pat.isEmpty then some ([], []) else none
  | fuel + 1, s@(c :: cs) =>
    if headMatches pat s then some ([], s.drop pat.length)
    else
      match splitAtSubAux pat fuel cs with
      | some (pre, post) => some (c :: pre, post)
      | none => none

/-- Split at the first occurrence of a substring. -/
def splitAtSub (pat s : List Char) : Option (List Char × List Char) :=
  splitAtSubAux pat (s.length + 1) s

/-- Matches of `/\/\*[\s\S]*?\*\//g`: each block comment from a `/*` to the
first following `*/`, scanned leftmost and non-overlapping. -/
def blockCommentsAux : Nat → List Char → List (List Char)
  | 0, _ => []
  | _ + 1, [] => []
  | fuel + 1, s =>
    if headMatches "/*".data s then
      match splitAtSub "*/".data (s.drop 2) with
      | some (body, rem) =>
        ('/' :: '*' :: body ++ "*/".data) :: blockCommentsAux fuel rem
      | none => blockCommentsAux fuel (s.drop 1)
    else blockCommentsAux fuel (s.drop 1)

/-- `code.match(/\/\*[\s\S]*?\*\//g) || []`. -/
def blockComments (code : List Char) : List (List Char) :=
  blockCommentsAux code.length code

/-- JavaScript line terminators (excluded by `.` and matched by `$`/`^` in
multiline mode). -/
def isLineTerm (c : Char) : Bool :=
  c = '\n' || c = '\r' || c = '\u2028' || c = '\u2029'

/-- Matches of `/\/\/.*$/gm`: from each `//` to the end of its line. -/
def lineCommentsAux : Nat → List Char → List (List Char)
  | 0, _ => []
  | _ + 1, [] => []
  | fuel + 1, s =>
    if headMatches "//".data s then
      let body := s.takeWhile (fun c => !isLineTerm c)
      body :: lineCommentsAux fuel (s.drop body.length)
    else lineCommentsAux fuel (s.drop 1)

/-- `code.match(/\/\/.*$/gm) || []`. -/
def lineComments (code : List Char) : List (List Char) :=
  lineCommentsAux code.length code

/-- The `^\/\*+` half of the delimiter strip (schemafinder.js:307): remove a
leading `/` followed by one or more `*`. -/
def stripLeadBlock (s : List Char) : List Char :=
  match s with
  | '/' :: '*' :: rest => rest.dropWhile (fun c => c = '*')
  | _ => s

/-- The `\*+\/$` half of the delimiter strip (schemafinder.js:307): remove a
trailing run of one or more `*` followed by `/`. -/
def stripTrailBlock (s : List Char) : List Char :=
  match s.reverse with
  | '/' :: r =>
    let stars := r.takeWhile (fun c => c = '*')
    if stars.isEmpty then s else (r.drop stars.length).reverse
  | _ => s

/-- `replace(/^\/\/\s*/gm, '')` (schemafinder.js:308): at every line start,
remove `//` and the following whitespace run (which may span lines); the scan
continues after each removed region, line-start-ness determined by the last
removed character. -/
def stripLineSlashesAux : Nat → Bool → List Char → List Char
  | 0, _, s => s
  | _ + 1, _, [] => []
  | fuel + 1, atStart, s@(c :: cs) =>
    if atStart && headMatches "//".data s then
      let run := (s.drop 2).takeWhile isWS
      let atStart' := match run.getLast? with
        | some x => isLineTerm x
        | none => false
      stripLineSlashesAux fuel atStart' ((s.drop 2).drop run.length)
    else c :: stripLineSlashesAux fuel (isLineTerm c) cs

/-- The multiline `//`-prefix strip. -/
def stripLineSlashes (s : List Char) : List Char :=
  stripLineSlashesAux s.length true s

/-- The comment cleaning chain (schemafinder.js:306-309). -/
def cleanComment (c : List Char) : List Char :=
  trimWS (stripLineSlashes (stripTrailBlock (stripLeadBlock c)))

/-- `extractFromComments(code)` (schemafinder.js:297-313): all block
comments, then all line comments, each cleaned and fed to `extractOperation`
with a fresh empty `variables` object. -/
def extractFromComments (fp og code : List Char) (m : OpsMap) : OpsMap :=
  (blockComments code ++ lineComments code).foldl
    (fun acc c => extractOperation fp og (cleanComment c) [] acc) m

/-! ## The keyword-presence screen and string cleaning
(`POTENTIAL_GQL_STRING`, schemafinder.js:40; `detectGraphQLInString`,
schemafinder.js:161-201) -/

/-- Occurrence of `pat` in `s` with `\b` word boundaries on both sides. -/
def boundedSubAux (pat : List Char) : Nat → Option Char → List Char → Bool
  | 0, _, _ => false
  | _ + 1, _, [] => false
  | fuel + 1, prev, s@(c :: cs) =>
    (headMatches pat s &&
      (match prev with
       | none => true
       | some p => !isWordChar p) &&
      (match s.drop pat.length with
       | [] => true
       | d :: _ => !isWordChar d))
    || boundedSubAux pat fuel (some c) cs

/-- Word-bounded substring test. -/
def boundedSub (pat s : List Char) : Bool := boundedSubAux pat s.length none s

/-- `POTENTIAL_GQL_STRING.test(str)` (schemafinder.js:40,166): the
case-insensitive keyword screen. -/
def potentialGql (s : List Char) : Bool :=
  let ls := s.map Char.toLower
  containsSub ls "query".data || containsSub ls "mutation".data ||
  containsSub ls "subscription".data || containsSub ls "fragment".data ||
  containsSub ls "__typename".data ||
  boundedSub "edges".data ls || boundedSub "node".data ls ||
  boundedSub "pageinfo".data ls

/-- One global replace of the two-character sequence `a b` by `r`
(left-to-right, non-overlapping), as in `str.replace(/\\n/g, '\n')`. -/
def replacePair (a b r : Char) : List Char → List Char
  | [] => []
  | [x] => [x]
  | x :: y :: rest =>
    if x = a && y = b then r :: replacePair a b r rest
    else x :: replacePair a b r (y :: rest)

/-- The escape-unfolding chain of `detectGraphQLInString`
(schemafinder.js:167-173): `\\n` to newline, `\\t` to space, `\\"` to `"`,
escaped single quote to single quote, then whitespace collapse and trim. -/
def cleanGqlString (s : List Char) : List Char :=
  normalizeSig
    (replacePair '\\' (Char.ofNat 39) (Char.ofNat 39)
      (replacePair '\\' '"' '"'
        (replacePair '\\' 't' ' '
          (replacePair '\\' 'n' '\n' s))))

/-! ## The minified pattern library `MINIFIED_GQL_PATTERNS`
(schemafinder.js:25-37)

Each matcher mirrors the backtracking behaviour of its regex at a fixed
start position and returns the full match together with the remaining
suffix.  The generic driver below reproduces `matchAll`. -/

/-- Characters other than braces (`[^{}]`). -/
def nonBrace (c : Char) : Bool := c ≠ '{' && c ≠ '}'

/-- Innermost brace template `\{[^{}]*\}` of pattern 0. -/
def p0Lvl3 (s : List Char) : Option (List Char × List Char) :=
  match s with
  | '{' :: t =>
    let a := t.takeWhile nonBrace
    match t.drop a.length with
    | '}' :: r => some ('{' :: a ++ ['}'], r)
    | _ => none
  | _ => none

/-- The starred group `(?:\{[^{}]*\}[^{}]*)*` inside the depth-2 template: an
iteration is attempted exactly when the next character is `{`, and a failing
iteration fails the enclosing template (its closing `}` cannot match the
`{`).  The fuel (one per iteration, each consuming at least two characters)
never runs out when seeded with the suffix length. -/
def p0Lvl2LoopAux : Nat → List Char → Option (List Char × List Char)
  | 0, s => some ([], s)
  | fuel + 1, s =>
    match s with
    | '{' :: _ =>
      match p0Lvl3 s with
      | none => none
      | some (c3, r) =>
        let a := r.takeWhile nonBrace
        match p0Lvl2LoopAux fuel (r.drop a.length) with
        | none => none
        | some (mid, rem) => some (c3 ++ a ++ mid, rem)
    | _ => some ([], s)

/-- Depth-2 template `\{[^{}]*(?:\{[^{}]*\}[^{}]*)*\}` of pattern 0. -/
def p0Lvl2 (s : List Char) : Option (List Char × List Char) :=
  match s with
  | '{' :: t =>
    let a := t.takeWhile nonBrace
    match p0Lvl2LoopAux (t.length + 1) (t.drop a.length) with
    | none => none
    | some (mid, r) =>
      match r with
      | '}' :: rem => some ('{' :: a ++ mid ++ ['}'], rem)
      | _ => none
  | _ => none

/-- The starred group of the outermost level of pattern 0 (depth-2 bodies
separated by non-brace runs). -/
def p0Lvl1LoopAux : Nat → List Char → Option (List Char × List Char)
  | 0, s => some ([], s)
  | fuel + 1, s =>
    match s with
    | '{' :: _ =>
      match p0Lvl2 s with
      | none => none
      | some (c2, r) =>
        let a := r.takeWhile nonBrace
        match p0Lvl1LoopAux fuel (r.drop a.length) with
        | none => none
        | some (mid, rem) => some (c2 ++ a ++ mid, rem)
    | _ => some ([], s)

/-- The whole brace body of pattern 0:
`\{[^{}]*(?:\{[^{}]*(?:\{[^{}]*\}[^{}]*)*\}[^{}]*)*\}` (nesting bounded at
three levels). -/
def p0Body (s : List Char) : Option (List Char × List Char) :=
  match s with
  | '{' :: t =>
    let a := t.takeWhile nonBrace
    match p0Lvl1LoopAux (t.length + 1) (t.drop a.length) with
    | none => none
    | some (mid, r) =>
      match r with
      | '}' :: rem => some ('{' :: a ++ mid ++ ['}'], rem)
      | _ => none
  | _ => none

/-- Pattern 0 (schemafinder.js:27), anchored at the head of `s`:
`(?:query|mutation|subscription|fragment)\s*([a-zA-Z0-9_]*)\s*(?:\([^)]*\))?\s*`
followed by the bounded-depth brace body.  The optional name may be empty. -/
def matchP0At (s : List Char) : Option (List Char × List Char) :=
  match stripKw s with
  | none => none
  | some (kw, r1) =>
    let ws1 := r1.takeWhile isWS
    let r2 := r1.drop ws1.length
    let nm := r2.takeWhile isWordChar
    let r3 := r2.drop nm.length
    let ws2 := r3.takeWhile isWS
    let r4 := r3.drop ws2.length
    let parsed : Option (List Char × List Char) :=
      match r4 with
      | '(' :: t =>
        let inner := t.takeWhile (fun c => c ≠ ')')
        match t.drop inner.length with
        | ')' :: r5 => some ('(' :: inner ++ [')'], r5)
        | _ => none
      | _ => some ([], r4)
    match parsed with
    | none => none
    | some (parens, r5) =>
      let ws3 := r5.takeWhile isWS
      match p0Body (r5.drop ws3.length) with
      | some (body, rem) =>
        some (kw ++ ws1 ++ nm ++ ws2 ++ parens ++ ws3 ++ body, rem)
      | none => none

/-- Boundaries of the greedy star `(?:\\.|[^Q\\])*` for a quote set `Q`: the
list of suffixes at the item boundaries, in scan order, starting with the
whole suffix (zero items).  An item is either an escape `\\.` or one
character that is neither a quote of `Q` nor a backslash.  `dotAll` is the
regex `s` flag: with it the escape consumes a backslash and any character
(patterns 1 and 2 of `MINIFIED_GQL_PATTERNS` carry `gs`,
schemafinder.js:30,33); without it `.` excludes line terminators, so a
backslash followed by a line terminator stops the star (the string-literal
regexes of `analyzeStringLiterals` carry only `g`, schemafinder.js:210-212). -/
def escBoundariesAux (dotAll : Bool) (quotes : List Char) :
    Nat → List Char → List (List Char)
  | 0, s => [s]
  | fuel + 1, s =>
    s :: (match s with
      | '\\' :: x :: rest =>
        if dotAll || !isLineTerm x then escBoundariesAux dotAll quotes fuel rest
        else []
      | c :: rest =>
        if quotes.contains c || c = '\\' then []
        else escBoundariesAux dotAll quotes fuel rest
      | [] => [])

/-- All boundaries of the greedy escaped-item star. -/
def escBoundaries (dotAll : Bool) (quotes s : List Char) : List (List Char) :=
  escBoundariesAux dotAll quotes s.length s

/-- The suffix left after consuming the escaped-item star greedily. -/
def escFinal (dotAll : Bool) (quotes s : List Char) : List Char :=
  (escBoundaries dotAll quotes s).getLast?.getD s

/-- Pattern 1 (schemafinder.js:30), anchored:
`"(?:\\.|[^"\\])*(?:query|mutation|subscription|fragment)[^"]*"`.  The
backtracking engine prefers the longest head star, so keyword positions are
tried at the item boundaries from last to first; after the keyword, `[^"]*"`
deterministically ends at the first quote. -/
def matchP1At (s : List Char) : Option (List Char × List Char) :=
  match s with
  | '"' :: t =>
    match (escBoundaries true ['"'] t).reverse.findSome? (fun b =>
      match stripKw b with
      | none => none
      | some (_, r) =>
        let run := r.takeWhile (fun c => c ≠ '"')
        match r.drop run.length with
        | '"' :: rem => some rem
        | _ => none) with
    | some rem => some (s.take (s.length - rem.length), rem)
    | none => none
  | _ => none

/-- The quote class of pattern 2: single quote, double quote, backtick. -/
def quoteChars : List Char := [Char.ofNat 39, '"', Char.ofNat 96]

/-- Pattern 2 (schemafinder.js:33), anchored:
a quote of the class, escaped items, a keyword, escaped items, any quote of
the class.  The closing-quote search cannot succeed at an intermediate tail
boundary (item parsing only stops at quotes), so only the greedy tail end is
tested. -/
def matchP2At (s : List Char) : Option (List Char × List Char) :=
  match s with
  | c :: t =>
    if quoteChars.contains c then
      match (escBoundaries true quoteChars t).reverse.findSome? (fun b =>
        match stripKw b with
        | none => none
        | some (_, r) =>
          match escFinal true quoteChars r with
          | d :: rem => if quoteChars.contains d then some rem else none
          | [] => none) with
      | some rem => some (s.take (s.length - rem.length), rem)
      | none => none
    else none
  | [] => none

/-- The lookahead `(?=\s*[,;)\]}])` of pattern 3 (zero-width). -/
def p3Lookahead (s : List Char) : Bool :=
  match s.dropWhile isWS with
  | c :: _ => c = ',' || c = ';' || c = ')' || c = ']' || c = '}'
  | [] => false

/-- The lazy body `\{[\s\S]*?\}` of pattern 3 with its lookahead: the
closing-brace candidates are tried left to right, the consumed body grows
past each rejected one. -/
def p3BodyAux : Nat → List Char → List Char → Option (List Char × List Char)
  | 0, _, _ => none
  | fuel + 1, acc, s =>
    let run := s.takeWhile (fun c => c ≠ '}')
    match s.drop run.length with
    | '}' :: rem =>
      if p3Lookahead rem then some (acc ++ run ++ ['}'], rem)
      else p3BodyAux fuel (acc ++ run ++ ['}']) rem
    | _ => none

/-- The lazy bounded gap `[\s\S]{0,50}?` of pattern 3 followed by the brace
body: shorter gaps are preferred; a position whose body search fails becomes
part of a longer gap. -/
def p3GapAux : Nat → List Char → Option (List Char × List Char)
  | budget, s =>
    let here : Option (List Char × List Char) :=
      match s with
      | '{' :: b =>
        match p3BodyAux (b.length + 1) [] b with
        | some (body, rem) => some ('{' :: body, rem)
        | none => none
      | _ => none
    match here with
    | some v => some v
    | none =>
      match budget, s with
      | b + 1, c :: cs =>
        match p3GapAux b cs with
        | some (tail, rem) => some (c :: tail, rem)
        | none => none
      | _, _ => none

/-- Pattern 3 (schemafinder.js:36), anchored:
`(?:query|mutation|subscription|fragment)[\s\S]{0,50}?\{[\s\S]*?\}(?=\s*[,;)\]}])`.
The lookahead is not consumed. -/
def matchP3At (s : List Char) : Option (List Char × List Char) :=
  match stripKw s with
  | none => none
  | some (kw, r1) =>
    match p3GapAux 50 r1 with
    | some (tail, rem) => some (kw ++ tail, rem)
    | none => none

/-- Generic `matchAll` driver for an anchored matcher: leftmost scan,
continuing after each match; every step consumes at least one character so a
fuel equal to the text length suffices. -/
def matchAllWithAux (matchAt : List Char → Option (List Char × List Char)) :
    Nat → List Char → List (List Char)
  | 0, _ => []
  | _ + 1, [] => []
  | fuel + 1, s =>
    match matchAt s with
    | some (full, rem) => full :: matchAllWithAux matchAt fuel rem
    | none => matchAllWithAux matchAt fuel (s.drop 1)

/-- `text.matchAll(pattern)` for an anchored matcher. -/
def matchAllWith (matchAt : List Char → Option (List Char × List Char))
    (s : List Char) : List (List Char) :=
  matchAllWithAux matchAt s.length s

/-- All matches of `MINIFIED_GQL_PATTERNS[i]` in `text`. -/
def minifiedMatchAll (i : Nat) (s : List Char) : List (List Char) :=
  match i with
  | 0 => matchAllWith matchP0At s
  | 1 => matchAllWith matchP1At s
  | 2 => matchAllWith matchP2At s
  | _ => matchAllWith matchP3At s

/-! ## The aggressive whole-file scan (schemafinder.js:347-368) and
`detectGraphQLInString` (schemafinder.js:161-201) -/

/-- Placeholder name for an unnamed match of pattern `i`:
the template string `Pattern(i)_Operation` (schemafinder.js:358). -/
def patternName (i : Nat) : List Char :=
  "Pattern".data ++ Nat.toDigits 10 i ++ "_Operation".data

/-- Context tag `pattern_(i)` (schemafinder.js:362). -/
def contextName (i : Nat) : List Char :=
  "pattern_".data ++ Nat.toDigits 10 i

/-- Processing of one whole-file match of minified pattern `i`
(schemafinder.js:350-365): accepted only above 30 characters and when not
yet in `detectedStrings`; stored verbatim under its normalized signature,
named by `extractOperationName(op) || patternName i`.  The state pairs the
operations map with `detectedStrings`. -/
def scanStep (fp og : List Char) (i : Nat) (st : OpsMap × List (List Char))
    (operation : List Char) : OpsMap × List (List Char) :=
  if operation.length > 30 && !st.2.contains operation then
    (opsInsert st.1 (normalizeSig operation)
      { operation := operation,
        name := (extractOperationName operation).getD (patternName i),
        vars := extractVariablesFromOperation operation,
        source := fp, origin := og, context := contextName i },
     operation :: st.2)
  else st

/-- The `MINIFIED_GQL_PATTERNS.forEach` whole-file scan
(schemafinder.js:347-368). -/
def minifiedWholeFileScan (fp og code : List Char)
    (st : OpsMap × List (List Char)) : OpsMap × List (List Char) :=
  [0, 1, 2, 3].foldl
    (fun acc i => (minifiedMatchAll i code).foldl (scanStep fp og i) acc) st

/-- One item returned by `detectGraphQLInString` (schemafinder.js:177-194). -/
structure FoundItem where
  /-- `operation` -/
  operation : List Char
  /-- `name` -/
  name : List Char
  /-- `context` -/
  context : List Char
deriving DecidableEq, Repr

/-- `detectGraphQLInString(str, context)` (schemafinder.js:161-201) with the
shared `detectedStrings` set threaded through: keyword screen, escape
cleaning, standard matches first, minified patterns (threshold 20) only in
aggressive mode when no standard match was found. -/
def detectGraphQLInString (aggr : Bool) (str ctx : List Char)
    (ds : List (List Char)) : List FoundItem × List (List Char) :=
  if potentialGql str then
    let cleaned := cleanGqlString str
    let ms := gqlMatchAll cleaned
    if !ms.isEmpty then
      (ms.map (fun m =>
        { operation := m.full,
          name := if m.name.isEmpty then "Anonymous".data else m.name,
          context := ctx }), ds)
    else if aggr then
      [0, 1, 2, 3].foldl
        (fun (acc : List FoundItem × List (List Char)) i =>
          (minifiedMatchAll i cleaned).foldl
            (fun acc2 op =>
              if op.length > 20 && !acc2.2.contains op then
                (acc2.1 ++ [{ operation := op,
                              name := (extractOperationName op).getD
                                        "MinifiedOperation".data,
                              context := ctx ++ "_minified".data }],
                 op :: acc2.2)
              else acc2) acc)
        ([], ds)
    else ([], ds)
  else ([], ds)

/-- The string-literal regexes of `analyzeStringLiterals`
(schemafinder.js:209-213): `Q(?:\\.|[^Q\\])*Q` for each quote `Q`,
anchored.  The greedy item star must end exactly at a closing quote.
These regexes carry only the `g` flag — unlike the GraphQL patterns they
have no `s` flag — so their `\\.` item cannot consume a backslash followed
by a line terminator: the escape consumer runs in non-dotAll mode. -/
def matchStrLitAt (q : Char) (s : List Char) : Option (List Char × List Char) :=
  match s with
  | c :: t =>
    if c = q then
      match escFinal false [q] t with
      | d :: rem =>
        if d = q then some (s.take (s.length - rem.length), rem) else none
      | [] => none
    else none
  | [] => none

/-- Insertion of one detected item into the operations map, as performed by
`analyzeStringLiterals` (schemafinder.js:220-231) and the `StringLiteral`
visitor (schemafinder.js:386-397): keyed by the normalized operation text,
variables inferred by `extractVariablesFromOperation`. -/
def insertFound (fp og : List Char) (m : OpsMap) (item : FoundItem) : OpsMap :=
  opsInsert m (normalizeSig item.operation)
    { operation := item.operation, name := item.name,
      vars := extractVariablesFromOperation item.operation,
      source := fp, origin := og, context := item.context }

/-- `analyzeStringLiterals(code)` (schemafinder.js:208-235): for each quote
style in order (double, single, backtick), every string literal in the raw
text has its content (`slice(1, -1)`) screened by `detectGraphQLInString`
and the findings inserted. -/
def analyzeStringLiterals (fp og : List Char) (aggr : Bool) (code : List Char)
    (st : OpsMap × List (List Char)) : OpsMap × List (List Char) :=
  ['"', Char.ofNat 39, Char.ofNat 96].foldl
    (fun acc q =>
      (matchAllWith (matchStrLitAt q) code).foldl
        (fun (acc2 : OpsMap × List (List Char)) lit =>
          let str := (lit.drop 1).dropLast
          let fd := detectGraphQLInString aggr str "string_literal".data acc2.2
          (fd.1.foldl (insertFound fp og) acc2.1, fd.2)) acc) st

/-! ## The worker message handler (schemafinder.js:156-493)

The Babel parse and traversal (schemafinder.js:370-465) are external
collaborators; a parse outcome is modelled as `none` (parse threw) or the
list of texts the visitors submit, in traversal order: tagged-template and
HTTP-call-body visitors call `extractOperation(text, variables)`
(schemafinder.js:405, :447, :450, :461), the `StringLiteral` visitor feeds
`detectGraphQLInString` in aggressive mode (schemafinder.js:383-399). -/

/-- One visitor submission of the structural traversal. -/
inductive AstHit where
  /-- A call `extractOperation(text, variables)`. -/
  | extractText (text : List Char) (vars : VarMap)
  /-- A `StringLiteral` node value. -/
  | stringLit (value : List Char)

/-- The outcome of the parse attempt: `none` is a parse failure. -/
abbrev ParseOutcome := Option (List AstHit)

/-- Processing of one visitor submission. -/
def astHitStep (fp og : List Char) (aggr : Bool)
    (st : OpsMap × List (List Char)) (h : AstHit) : OpsMap × List (List Char) :=
  match h with
  | .extractText t vars => (extractOperation fp og t vars st.1, st.2)
  | .stringLit v =>
    if aggr && !v.isEmpty then
      let fd := detectGraphQLInString aggr v "ast_string".data st.2
      (fd.1.foldl (insertFound fp og) st.1, fd.2)
    else st

/-- The minified-input heuristic (schemafinder.js:334). -/
def isLikelyMinified (code : List Char) : Bool :=
  code.length > 10000 && (splitOnChar '\n' code).length < 50

/-- The whole per-task worker computation (schemafinder.js:157-490):
comment scan always first, string-literal scan when aggressive or likely
minified, whole-file pattern scan when aggressive, then the structural
traversal when the parse succeeded.  A parse failure only skips the last
stage. -/
def workerProcess (fp og code : List Char) (aggr : Bool) (po : ParseOutcome) :
    OpsMap :=
  let m1 := extractFromComments fp og code []
  let st1 := if aggr || isLikelyMinified code
    then analyzeStringLiterals fp og aggr code (m1, [])
    else (m1, ([] : List (List Char)))
  let st2 := if aggr then minifiedWholeFileScan fp og code st1 else st1
  match po with
  | none => st2.1
  | some hits => (hits.foldl (astHitStep fp og aggr) st2).1

/-! ## The concurrency pipeline aggregator (`processFiles`,
schemafinder.js:495-569) -/

/-- The canonical signature of a stored record, as recomputed by the
aggregator (schemafinder.js:520). -/
def sigOf (op : Op) : List Char := normalizeSig op.operation

/-- The merge of one worker result message into the global map
(schemafinder.js:518-524): signature-keyed, first writer wins. -/
def mergeOps (acc : OpsMap) (ops : List Op) : OpsMap :=
  ops.foldl (fun a op => opsInsert a (sigOf op) op) acc

/-- The global aggregation over the per-task result lists, in arrival
order. -/
def aggregate (results : List (List Op)) : OpsMap :=
  results.foldl mergeOps []

/-- First element of a list of records carrying the given signature. -/
def findOp (sig : List Char) : List Op → Option Op
  | [] => none
  | op :: rest => if sigOf op = sig then some op else findOp sig rest

/-- The observable outcome of one task inside `processEntry`
(schemafinder.js:511-562): either the content was read and the worker
replied with its operation list, or reading failed (`stat`/stream/readFile
error paths at :543-546 and :548-551). -/
inductive TaskOutcome where
  /-- Content read; the worker replied with these operations. -/
  | readOk (ops : List Op)
  /-- Content could not be read; the task resolves with no message. -/
  | readErr

/-- Per-worker counts of the `message` listeners attached so far: each
`processEntry` invocation calls `worker.on('message', ...)`
(schemafinder.js:516) on the pooled worker it popped and never removes the
listener afterwards, so a worker accumulates one listener per task it was
ever assigned. -/
def bumpCount : List (Nat × Nat) → Nat → List (Nat × Nat)
  | [], w => [(w, 1)]
  | (k, c) :: rest, w =>
    if k = w then (k, c + 1) :: rest else (k, c) :: bumpCount rest w

/-- The number of `message` listeners currently attached to worker `w`. -/
def getCount : List (Nat × Nat) → Nat → Nat
  | [], _ => 0
  | (k, c) :: rest, w => if k = w then c else getCount rest w

/-- `k` successive merges of the same reply into the global map: one per
listener fired by the single `message` event (each listener runs the
guarded-insert loop of schemafinder.js:519-524 over the same list). -/
def mergeRepeat : Nat → OpsMap → List Op → OpsMap
  | 0, m, _ => m
  | k + 1, m, ops => mergeRepeat k (mergeOps m ops) ops

/-- The mutable state `processEntry` touches: the listener counts of the
pooled workers, the global operations map and the progress-bar counter. -/
structure PipelineSt where
  /-- Listener count per pooled worker. -/
  listeners : List (Nat × Nat)
  /-- The global `allOperations` map. -/
  ops : OpsMap
  /-- The number of `bar.increment()` calls so far. -/
  counter : Nat
deriving DecidableEq, Repr

/-- `processEntry` (schemafinder.js:511-562) for one task, given the pooled
worker the scheduler handed it.  The `workers` array together with `pLimit`
is abstracted by that per-task worker assignment; since a popped worker is
held from dispatch until its reply, the tasks of one worker are processed
in order, so folding the completion order reproduces each worker's real
listener history.  The handler registration at :516 attaches a fresh
listener to the (reused) worker before the content is read and never
removes it.  A read failure (:543-546, :548-551) resolves with no message,
so nothing fires: no merge and no increment.  A reply is one `message`
event that fires every listener accumulated on that worker: each listener
re-merges the same operations list (idempotently, the insert being
guarded) and calls `bar.increment()` (:526), so the counter advances once
per listener, not once per task.  Verbose diagnostic messages
(schemafinder.js:336, :468, :475, :481) would fire the same listeners
again; this model covers non-verbose runs, where each task produces at
most one message. -/
def processEntry (st : PipelineSt) (tw : TaskOutcome × Nat) : PipelineSt :=
  let ls := bumpCount st.listeners tw.2
  let k := getCount ls tw.2
  match tw.1 with
  | .readErr => { listeners := ls, ops := st.ops, counter := st.counter }
  | .readOk ops =>
    { listeners := ls, ops := mergeRepeat k st.ops ops,
      counter := st.counter + k }

/-- A whole non-verbose run of the pipeline: the tasks in completion order,
each paired with the pooled worker that processed it. -/
def runPipeline (schedule : List (TaskOutcome × Nat)) : PipelineSt :=
  schedule.foldl processEntry { listeners := [], ops := [], counter := 0 }

/-- The reply lists of the tasks whose content was read, in completion
order. -/
def readResults (schedule : List (TaskOutcome × Nat)) : List (List Op) :=
  schedule.filterMap (fun tw =>
    match tw.1 with
    | .readOk ops => some ops
    | .readErr => none)

/-- Did the task read successfully? -/
def taskIsOk : TaskOutcome → Bool
  | .readOk _ => true
  | .readErr => false

/-! ## Concrete instances used by the claim theorems -/

/-- A syntactically invalid source fragment containing a commented-out
well-formed operation named `Foo`. -/
def invalidSrc : List Char := "] not ( valid js /* query Foo { id } */ td(((".data

/-- The canonical signature of the commented operation of `invalidSrc`. -/
def fooSig : List Char := "query Foo { id }".data

/-- The record the comment scan stores for `invalidSrc` under worker input
`bad.js`. -/
def fooOp : Op :=
  { operation := "query Foo { id }".data, name := "Foo".data, vars := [],
    source := "bad.js".data, origin := "bad.js".data,
    context := "standard".data }

/-- A source line whose quoted operation is long enough for the aggressive
whole-file scan thresholds. -/
def minifiedSrc : List Char :=
  "x = \"query AbcdefGhijklmnopqrstuvwxyz { id }\";".data

/-- The quoted-span match (specification pattern 3, `MINIFIED_GQL_PATTERNS`
index 1) inside `minifiedSrc`, quotes included: it does not end with a
closing brace. -/
def quotedMatch : List Char :=
  "\"query AbcdefGhijklmnopqrstuvwxyz { id }\"".data

/-- An operation text with a nested brace body. -/
def nestedSrc : List Char := "query Foo { a { b } }".data

/-- The prefix of `nestedSrc` up to (and including) the first closing brace:
what the lazy standard pattern actually matches. -/
def truncatedNested : List Char := nestedSrc.take 19

/-- A text with two operations carrying different argument lists. -/
def twoOpsSrc : List Char :=
  "query A($x: Int) { a } query B($y: String) { b }".data

/-- A source whose only operation-shaped content is anonymous. -/
def anonSrc : List Char := "/* query { id } */".data

/-- A long anonymous operation: only the aggressive minified patterns can
extract it. -/
def anonLongSrc : List Char := "query { abcdefghijklmnopqrstuvwxyz }".data

/-- The record the aggressive whole-file scan stores for `quotedMatch`:
text verbatim (quotes kept, no trailing brace added). -/
def quotedOp : Op :=
  { operation := quotedMatch, name := "AbcdefGhijklmnopqrstuvwxyz".data,
    vars := [], source := "m.js".data, origin := "m.js".data,
    context := "pattern_1".data }

/-- A record for `query A { id }` as found in file `f1.js`. -/
def opA : Op :=
  { operation := "query A { id }".data, name := "A".data, vars := [],
    source := "f1.js".data, origin := "f1.js".data,
    context := "standard".data }

/-- The record for the same operation text found in file `f2.js`: equal
signature, different record. -/
def opB : Op :=
  { operation := "query A { id }".data, name := "A".data, vars := [],
    source := "f2.js".data, origin := "f2.js".data,
    context := "standard".data }

/-! ## Lemmas about the signature-keyed map -/

theorem lookupA_append_single (m : OpsMap) (k : List Char) (op : Op)
    (sig : List Char) :
    lookupA (m ++ [(k, op)]) sig =
      match lookupA m sig with
      | some v => some v
      | none => if k = sig then some op else none := by
  induction m with
  | nil => simp [lookupA]
  | cons p rest ih =>
    by_cases h : p.1 = sig
    · simp [lookupA, h]
    · simp [lookupA, h, ih]

theorem opsInsert_pres {m : OpsMap} {k : List Char} {v : Op}
    (k' : List Char) (op : Op) (h : lookupA m k = some v) :
    lookupA (opsInsert m k' op) k = some v := by
  unfold opsInsert
  split
  · exact h
  · rw [lookupA_append_single, h]

theorem opsInsert_lookup_none {m : OpsMap} {sig : List Char}
    (k : List Char) (op : Op) (h : lookupA m sig = none) :
    lookupA (opsInsert m k op) sig = if k = sig then some op else none := by
  unfold opsInsert
  split
  · rename_i hs
    rw [h]
    by_cases hk : k = sig
    · subst hk
      rw [h] at hs
      simp at hs
    · simp [hk]
  · rw [lookupA_append_single, h]

theorem opsInsert_lookup_cases {m : OpsMap} {k sig : List Char} {op v : Op}
    (h : lookupA (opsInsert m k op) sig = some v) :
    lookupA m sig = some v ∨ (k = sig ∧ v = op ∧ lookupA m sig = none) := by
  cases hm : lookupA m sig with
  | some w =>
    rw [opsInsert_pres k op hm] at h
    exact Or.inl h
  | none =>
    rw [opsInsert_lookup_none k op hm] at h
    by_cases hk : k = sig
    · rw [if_pos hk] at h
      exact Or.inr ⟨hk, (Option.some.inj h).symm, rfl⟩
    · rw [if_neg hk] at h
      exact absurd h (by simp)

/-- Generic preservation through a left fold whose steps never disturb an
existing entry. -/
theorem foldl_pres {α σ : Type} (proj : σ → OpsMap) (f : σ → α → σ)
    (hf : ∀ s a k v, lookupA (proj s) k = some v →
      lookupA (proj (f s a)) k = some v) :
    ∀ (l : List α) (s : σ) (k : List Char) (v : Op),
      lookupA (proj s) k = some v →
      lookupA (proj (l.foldl f s)) k = some v := by
  intro l
  induction l with
  | nil => intro s k v h; exact h
  | cons x xs ih => intro s k v h; exact ih (f s x) k v (hf s x k v h)

theorem extractOperation_pres {fp og text : List Char} {vars : VarMap}
    {m : OpsMap} {k : List Char} {v : Op}
    (h : lookupA m k = some v) :
    lookupA (extractOperation fp og text vars m) k = some v := by
  unfold extractOperation
  exact foldl_pres id _ (fun _ _ _ _ hv => opsInsert_pres _ _ hv) _ m k v h

theorem extractFromComments_pres {fp og code : List Char} {m : OpsMap}
    {k : List Char} {v : Op} (h : lookupA m k = some v) :
    lookupA (extractFromComments fp og code m) k = some v := by
  unfold extractFromComments
  exact foldl_pres id _
    (fun _ _ _ _ hv => extractOperation_pres hv) _ m k v h

theorem insertFound_pres {fp og : List Char} {m : OpsMap} {item : FoundItem}
    {k : List Char} {v : Op} (h : lookupA m k = some v) :
    lookupA (insertFound fp og m item) k = some v :=
  opsInsert_pres _ _ h

theorem insertFound_fold_pres {fp og : List Char} {items : List FoundItem}
    {m : OpsMap} {k : List Char} {v : Op} (h : lookupA m k = some v) :
    lookupA (items.foldl (insertFound fp og) m) k = some v :=
  foldl_pres id _ (fun _ _ _ _ hv => insertFound_pres hv) _ m k v h

theorem analyzeStringLiterals_pres {fp og : List Char} {aggr : Bool}
    {code : List Char} {st : OpsMap × List (List Char)} {k : List Char}
    {v : Op} (h : lookupA st.1 k = some v) :
    lookupA (analyzeStringLiterals fp og aggr code st).1 k = some v := by
  unfold analyzeStringLiterals
  refine foldl_pres (fun s => s.1) _ ?_ _ st k v h
  intro s q k v hv
  refine foldl_pres (fun s => s.1) _ ?_ _ s k v hv
  intro s2 lit k v hv2
  exact insertFound_fold_pres hv2

theorem scanStep_pres {fp og : List Char} {i : Nat}
    {st : OpsMap × List (List Char)} {operation : List Char} {k : List Char}
    {v : Op} (h : lookupA st.1 k = some v) :
    lookupA (scanStep fp og i st operation).1 k = some v := by
  unfold scanStep
  split
  · exact opsInsert_pres _ _ h
  · exact h

theorem minifiedWholeFileScan_pres {fp og code : List Char}
    {st : OpsMap × List (List Char)} {k : List Char} {v : Op}
    (h : lookupA st.1 k = some v) :
    lookupA (minifiedWholeFileScan fp og code st).1 k = some v := by
  unfold minifiedWholeFileScan
  refine foldl_pres (fun s => s.1) _ ?_ _ st k v h
  intro s i k v hv
  exact foldl_pres (fun s => s.1) _ (fun s2 t k v hv2 => scanStep_pres hv2)
    _ s k v hv

theorem astHitStep_pres {fp og : List Char} {aggr : Bool}
    {st : OpsMap × List (List Char)} {h : AstHit} {k : List Char} {v : Op}
    (hv : lookupA st.1 k = some v) :
    lookupA (astHitStep fp og aggr st h).1 k = some v := by
  cases h with
  | extractText t vars =>
    simp only [astHitStep]
    exact extractOperation_pres hv
  | stringLit s =>
    simp only [astHitStep]
    split
    · exact insertFound_fold_pres hv
    · exact hv

/-- Nothing that runs after the comment scan inside the worker can remove or
replace one of its entries: the comment-scan result survives to the posted
result for every parse outcome and mode. -/
theorem workerProcess_pres {fp og code : List Char} {aggr : Bool}
    {po : ParseOutcome} {k : List Char} {v : Op}
    (h : lookupA (extractFromComments fp og code []) k = some v) :
    lookupA (workerProcess fp og code aggr po) k = some v := by
  unfold workerProcess
  have h1 : ∀ st : OpsMap × List (List Char), lookupA st.1 k = some v →
      lookupA (if aggr then minifiedWholeFileScan fp og code st else st).1 k =
        some v := by
    intro st hst
    split
    · exact minifiedWholeFileScan_pres hst
    · exact hst
  have h0 : lookupA (if aggr || isLikelyMinified code
      then analyzeStringLiterals fp og aggr code
        (extractFromComments fp og code [], [])
      else (extractFromComments fp og code [], ([] : List (List Char)))).1 k =
      some v := by
    split
    · exact analyzeStringLiterals_pres h
    · exact h
  cases po with
  | none => exact h1 _ h0
  | some hits =>
    exact foldl_pres (fun s : OpsMap × List (List Char) => s.1) _
      (fun s a k v hv => astHitStep_pres hv) _ _ k v (h1 _ h0)

/-! ## Aggregation: uniqueness and first-writer-wins -/

theorem lookupA_none_iff (m : OpsMap) (k : List Char) :
    lookupA m k = none ↔ k ∉ m.map Prod.fst := by
  induction m with
  | nil =>
    simp only [List.map_nil]
    exact Iff.intro (fun _ hx => nomatch hx) (fun _ => rfl)
  | cons p rest ih =>
    simp only [lookupA, List.map_cons, List.mem_cons]
    by_cases h : p.1 = k
    · subst h
      rw [if_pos rfl]
      constructor
      · intro hx
        exact Option.noConfusion hx
      · intro hx
        exact absurd (Or.inl rfl) hx
    · rw [if_neg h, ih]
      constructor
      · intro hn hc
        cases hc with
        | inl he => exact h he.symm
        | inr hm => exact hn hm
      · intro hn hm
        exact hn (Or.inr hm)

theorem opsInsert_keys_nodup {m : OpsMap} (k : List Char) (op : Op)
    (h : (m.map Prod.fst).Nodup) :
    ((opsInsert m k op).map Prod.fst).Nodup := by
  by_cases hs : (lookupA m k).isSome
  · rw [opsInsert, if_pos hs]
    exact h
  · rw [opsInsert, if_neg hs]
    rw [List.map_append, List.nodup_append]
    refine ⟨h, by simp, ?_⟩
    intro a ha hb
    simp only [List.map_cons, List.map_nil, List.mem_singleton] at hb
    subst hb
    have hn : lookupA m a = none := by
      cases hl : lookupA m a with
      | none => rfl
      | some v => rw [hl] at hs; simp at hs
    rw [lookupA_none_iff] at hn
    exact hn ha

theorem findOp_append (sig : List Char) (a b : List Op) :
    findOp sig (a ++ b) =
      match findOp sig a with
      | some v => some v
      | none => findOp sig b := by
  induction a with
  | nil => simp [findOp]
  | cons op rest ih =>
    by_cases h : sigOf op = sig
    · simp [findOp, h]
    · simp [findOp, h, ih]

theorem mergeOps_lookup (ops : List Op) (acc : OpsMap) (sig : List Char) :
    lookupA (mergeOps acc ops) sig =
      match lookupA acc sig with
      | some v => some v
      | none => findOp sig ops := by
  induction ops generalizing acc with
  | nil =>
    show lookupA acc sig = _
    cases lookupA acc sig <;> rfl
  | cons op rest ih =>
    show lookupA (mergeOps (opsInsert acc (sigOf op) op) rest) sig = _
    rw [ih]
    cases hm : lookupA acc sig with
    | some v => rw [opsInsert_pres _ _ hm]
    | none =>
      rw [opsInsert_lookup_none _ _ hm]
      by_cases h : sigOf op = sig
      all_goals simp [findOp, h]

theorem aggregate_fold_lookup (results : List (List Op)) (acc : OpsMap)
    (sig : List Char) :
    lookupA (results.foldl mergeOps acc) sig =
      match lookupA acc sig with
      | some v => some v
      | none => findOp sig results.flatten := by
  induction results generalizing acc with
  | nil =>
    show lookupA acc sig = _
    cases lookupA acc sig <;> rfl
  | cons ops rest ih =>
    show lookupA (rest.foldl mergeOps (mergeOps acc ops)) sig = _
    rw [ih, mergeOps_lookup]
    cases lookupA acc sig with
    | some v => rfl
    | none =>
      rw [List.flatten_cons, findOp_append]

/-- The aggregator lookup is the first record of the concatenated arrival
stream with the requested signature. -/
theorem aggregate_lookup (results : List (List Op)) (sig : List Char) :
    lookupA (aggregate results) sig = findOp sig results.flatten := by
  rw [aggregate, aggregate_fold_lookup]
  rfl

theorem aggregate_keys_nodup (results : List (List Op)) :
    ((aggregate results).map Prod.fst).Nodup := by
  rw [aggregate]
  have h : ∀ (rs : List (List Op)) (acc : OpsMap),
      (acc.map Prod.fst).Nodup → ((rs.foldl mergeOps acc).map Prod.fst).Nodup := by
    intro rs
    induction rs with
    | nil => intro acc h; exact h
    | cons ops rest ih =>
      intro acc hacc
      refine ih (mergeOps acc ops) ?_
      have h2 : ∀ (l : List Op) (a : OpsMap), (a.map Prod.fst).Nodup →
          ((mergeOps a l).map Prod.fst).Nodup := by
        intro l
        induction l with
        | nil => intro a ha; exact ha
        | cons op2 rest2 ih2 =>
          intro a ha
          exact ih2 (opsInsert a (sigOf op2) op2) (opsInsert_keys_nodup _ _ ha)
      exact h2 ops acc hacc
  exact h results [] (by simp)

theorem findOp_isSome_iff (sig : List Char) (l : List Op) :
    (findOp sig l).isSome = true ↔ ∃ op ∈ l, sigOf op = sig := by
  induction l with
  | nil => simp [findOp]
  | cons op rest ih =>
    by_cases h : sigOf op = sig
    · simp only [findOp, if_pos h, Option.isSome_some, true_iff]
      exact ⟨op, List.mem_cons_self op rest, h⟩
    · simp only [findOp, if_neg h, ih, List.mem_cons]
      constructor
      · rintro ⟨x, hx, hsx⟩
        exact ⟨x, Or.inr hx, hsx⟩
      · rintro ⟨x, hx, hsx⟩
        cases hx with
        | inl he => exact absurd (he ▸ hsx) h
        | inr hm => exact ⟨x, hm, hsx⟩

/-- C1: the aggregate has exactly one entry per canonical signature
(pairwise distinct keys), and the entry stored under a signature is the
first record of the arrival stream whose whitespace-normalized text equals
that signature: later equal-signature records are dropped. -/
theorem c1_aggregate_dedup_first_writer (results : List (List Op)) :
    ((aggregate results).map Prod.fst).Nodup ∧
    ∀ sig, lookupA (aggregate results) sig = findOp sig results.flatten :=
  ⟨aggregate_keys_nodup results, fun sig => aggregate_lookup results sig⟩

/-- C2, counterexample: the same two per-task result lists, merged in the two
arrival orders a different concurrency can produce, yield different record
sets: the first-arriving record wins, and the records differ in their
`source` field although their signatures agree. -/
theorem c2_concurrency_cex :
    (aggregate [[opA], [opB]]).map Prod.snd = [opA] ∧
    (aggregate [[opB], [opA]]).map Prod.snd = [opB] ∧
    opA ≠ opB ∧
    (aggregate [[opA], [opB]]).map Prod.snd ≠
      (aggregate [[opB], [opA]]).map Prod.snd := by decide

/-- C2, amended: the aggregate is not invariant as a set of records (see the
counterexample), but its set of canonical signatures is invariant under any
permutation of the task result stream, hence under completion order and the
configured concurrency; only the representative record chosen for a
signature depends on arrival order. -/
theorem c2_signature_set_invariant (rs₁ rs₂ : List (List Op))
    (h : List.Perm rs₁ rs₂) (sig : List Char) :
    (lookupA (aggregate rs₁) sig).isSome =
      (lookupA (aggregate rs₂) sig).isSome := by
  rw [aggregate_lookup, aggregate_lookup]
  have h1 := findOp_isSome_iff sig rs₁.flatten
  have h2 := findOp_isSome_iff sig rs₂.flatten
  have hp : List.Perm rs₁.flatten rs₂.flatten := List.Perm.flatten h
  cases b1 : (findOp sig rs₁.flatten).isSome
  · cases b2 : (findOp sig rs₂.flatten).isSome
    · rfl
    · exfalso
      obtain ⟨op, hm, hs⟩ := h2.mp b2
      have : (findOp sig rs₁.flatten).isSome = true :=
        h1.mpr ⟨op, hp.symm.subset hm, hs⟩
      rw [b1] at this
      exact Bool.noConfusion this
  · cases b2 : (findOp sig rs₂.flatten).isSome
    · exfalso
      obtain ⟨op, hm, hs⟩ := h1.mp b1
      have : (findOp sig rs₂.flatten).isSome = true :=
        h2.mpr ⟨op, hp.subset hm, hs⟩
      rw [b2] at this
      exact Bool.noConfusion this
    · rfl

/-- Witness for the amended C2 at a concrete permutation. -/
theorem c2_signature_set_invariant_witness :
    (lookupA (aggregate [[opA], [opB]]) (sigOf opA)).isSome =
      (lookupA (aggregate [[opB], [opA]]) (sigOf opA)).isSome :=
  c2_signature_set_invariant [[opA], [opB]] [[opB], [opA]] (by decide)
    (sigOf opA)

/-! ## The pipeline counter, read failures and listener accumulation -/

theorem getCount_bump_self (l : List (Nat × Nat)) (w : Nat) :
    getCount (bumpCount l w) w = getCount l w + 1 := by
  induction l with
  | nil => simp [bumpCount, getCount]
  | cons p rest ih =>
    obtain ⟨k, c⟩ := p
    by_cases h : k = w
    · simp [bumpCount, getCount, h]
    · simp [bumpCount, getCount, h, ih]

theorem getCount_bump_ne (l : List (Nat × Nat)) {w v : Nat} (h : v ≠ w) :
    getCount (bumpCount l w) v = getCount l v := by
  induction l with
  | nil => simp [bumpCount, getCount, Ne.symm h]
  | cons p rest ih =>
    obtain ⟨k, c⟩ := p
    simp only [bumpCount]
    by_cases hk : k = w
    · subst hk
      simp [getCount, Ne.symm h]
    · rw [if_neg hk]
      by_cases hv : k = v
      · simp [getCount, hv]
      · simp [getCount, hv, ih]

theorem mergeOps_of_present {m : OpsMap} {l : List Op}
    (h : ∀ op ∈ l, (lookupA m (sigOf op)).isSome = true) :
    mergeOps m l = m := by
  induction l generalizing m with
  | nil => rfl
  | cons op rest ih =>
    show mergeOps (opsInsert m (sigOf op) op) rest = m
    have hp : (lookupA m (sigOf op)).isSome = true :=
      h op (List.mem_cons_self _ _)
    rw [opsInsert, if_pos hp]
    exact ih (fun x hx => h x (List.mem_cons_of_mem _ hx))

theorem mergeOps_lookup_isSome {m : OpsMap} {l : List Op} {op : Op}
    (hm : op ∈ l) : (lookupA (mergeOps m l) (sigOf op)).isSome = true := by
  rw [mergeOps_lookup]
  cases hl : lookupA m (sigOf op) with
  | some v => rfl
  | none =>
    show (findOp (sigOf op) l).isSome = true
    exact (findOp_isSome_iff (sigOf op) l).mpr ⟨op, hm, rfl⟩

theorem mergeOps_idem (m : OpsMap) (l : List Op) :
    mergeOps (mergeOps m l) l = mergeOps m l :=
  mergeOps_of_present (fun _ hop => mergeOps_lookup_isSome hop)

theorem mergeRepeat_eq (k : Nat) (m : OpsMap) (l : List Op) :
    mergeRepeat (k + 1) m l = mergeOps m l := by
  induction k generalizing m with
  | zero => rfl
  | succ n ih =>
    show mergeRepeat (n + 1) (mergeOps m l) l = mergeOps m l
    rw [ih (mergeOps m l), mergeOps_idem]

theorem processEntry_readErr (st : PipelineSt) (w : Nat) :
    processEntry st (TaskOutcome.readErr, w) =
      { listeners := bumpCount st.listeners w, ops := st.ops,
        counter := st.counter } := rfl

theorem processEntry_readOk (st : PipelineSt) (ops : List Op) (w : Nat) :
    processEntry st (TaskOutcome.readOk ops, w) =
      { listeners := bumpCount st.listeners w,
        ops := mergeRepeat (getCount (bumpCount st.listeners w) w) st.ops ops,
        counter := st.counter + getCount (bumpCount st.listeners w) w } := rfl

theorem runPipeline_ops_fold (sched : List (TaskOutcome × Nat)) :
    ∀ st : PipelineSt,
      (sched.foldl processEntry st).ops =
        (readResults sched).foldl mergeOps st.ops := by
  induction sched with
  | nil => intro st; rfl
  | cons tw rest ih =>
    intro st
    obtain ⟨t, w⟩ := tw
    cases t with
    | readErr =>
      rw [List.foldl_cons, processEntry_readErr, ih]
      simp [readResults, List.filterMap_cons]
    | readOk ops =>
      rw [List.foldl_cons, processEntry_readOk, ih]
      show (readResults rest).foldl mergeOps
          (mergeRepeat (getCount (bumpCount st.listeners w) w) st.ops ops) = _
      rw [getCount_bump_self, mergeRepeat_eq]
      simp [readResults, List.filterMap_cons]

theorem runPipeline_counter_ge (sched : List (TaskOutcome × Nat)) :
    ∀ st : PipelineSt,
      st.counter + sched.countP (fun tw => taskIsOk tw.1) ≤
        (sched.foldl processEntry st).counter := by
  induction sched with
  | nil =>
    intro st
    simp [List.countP_nil]
  | cons tw rest ih =>
    intro st
    obtain ⟨t, w⟩ := tw
    cases t with
    | readErr =>
      rw [List.foldl_cons, processEntry_readErr]
      have h : st.counter + List.countP (fun tw => taskIsOk tw.1) rest ≤
          (rest.foldl processEntry
            { listeners := bumpCount st.listeners w, ops := st.ops,
              counter := st.counter }).counter :=
        ih { listeners := bumpCount st.listeners w, ops := st.ops,
             counter := st.counter }
      have hc : List.countP (fun tw => taskIsOk tw.1)
          ((TaskOutcome.readErr, w) :: rest) =
          List.countP (fun tw => taskIsOk tw.1) rest := by
        simp [List.countP_cons, taskIsOk]
      rw [hc]
      exact h
    | readOk ops =>
      rw [List.foldl_cons, processEntry_readOk]
      have h : st.counter + getCount (bumpCount st.listeners w) w +
          List.countP (fun tw => taskIsOk tw.1) rest ≤
          (rest.foldl processEntry
            { listeners := bumpCount st.listeners w,
              ops := mergeRepeat (getCount (bumpCount st.listeners w) w)
                st.ops ops,
              counter := st.counter +
                getCount (bumpCount st.listeners w) w }).counter :=
        ih { listeners := bumpCount st.listeners w,
             ops := mergeRepeat (getCount (bumpCount st.listeners w) w)
               st.ops ops,
             counter := st.counter +
               getCount (bumpCount st.listeners w) w }
      have hc : List.countP (fun tw => taskIsOk tw.1)
          ((TaskOutcome.readOk ops, w) :: rest) =
          List.countP (fun tw => taskIsOk tw.1) rest + 1 := by
        simp [List.countP_cons, taskIsOk]
      have hk : 1 ≤ getCount (bumpCount st.listeners w) w := by
        rw [getCount_bump_self]
        omega
      rw [hc]
      omega

theorem runPipeline_counter_fresh (sched : List (TaskOutcome × Nat)) :
    ∀ st : PipelineSt,
      (∀ w ∈ sched.map Prod.snd, getCount st.listeners w = 0) →
      (sched.map Prod.snd).Nodup →
      (sched.foldl processEntry st).counter =
        st.counter + sched.countP (fun tw => taskIsOk tw.1) := by
  induction sched with
  | nil =>
    intro st _ _
    simp [List.countP_nil]
  | cons tw rest ih =>
    intro st hfresh hnd
    obtain ⟨t, w⟩ := tw
    simp only [List.map_cons, List.nodup_cons] at hnd
    have hfresh0 : getCount st.listeners w = 0 :=
      hfresh w (by simp)
    have hfresh1 : ∀ v ∈ rest.map Prod.snd,
        getCount (bumpCount st.listeners w) v = 0 := by
      intro v hv
      have hvw : v ≠ w := fun he => hnd.1 (he ▸ hv)
      rw [getCount_bump_ne _ hvw]
      exact hfresh v (by simp [hv])
    have hk1 : getCount (bumpCount st.listeners w) w = 1 := by
      rw [getCount_bump_self, hfresh0]
    cases t with
    | readErr =>
      rw [List.foldl_cons, processEntry_readErr]
      have h : (rest.foldl processEntry
          { listeners := bumpCount st.listeners w, ops := st.ops,
            counter := st.counter }).counter =
          st.counter + List.countP (fun tw => taskIsOk tw.1) rest :=
        ih { listeners := bumpCount st.listeners w, ops := st.ops,
             counter := st.counter } hfresh1 hnd.2
      have hc : List.countP (fun tw => taskIsOk tw.1)
          ((TaskOutcome.readErr, w) :: rest) =
          List.countP (fun tw => taskIsOk tw.1) rest := by
        simp [List.countP_cons, taskIsOk]
      rw [hc]
      exact h
    | readOk ops =>
      rw [List.foldl_cons, processEntry_readOk]
      have h : (rest.foldl processEntry
          { listeners := bumpCount st.listeners w,
            ops := mergeRepeat (getCount (bumpCount st.listeners w) w)
              st.ops ops,
            counter := st.counter +
              getCount (bumpCount st.listeners w) w }).counter =
          st.counter + getCount (bumpCount st.listeners w) w +
            List.countP (fun tw => taskIsOk tw.1) rest :=
        ih { listeners := bumpCount st.listeners w,
             ops := mergeRepeat (getCount (bumpCount st.listeners w) w)
               st.ops ops,
             counter := st.counter +
               getCount (bumpCount st.listeners w) w } hfresh1 hnd.2
      have hc : List.countP (fun tw => taskIsOk tw.1)
          ((TaskOutcome.readOk ops, w) :: rest) =
          List.countP (fun tw => taskIsOk tw.1) rest + 1 := by
        simp [List.countP_cons, taskIsOk]
      rw [h, hc, hk1]
      omega

/-- C8, counterexample.  Two ways the claim "advanced exactly once per
completed task" fails.  (1) A run over a single unreadable task finishes
with the counter at `0`, not `1`: the read-error paths
(schemafinder.js:543-546, :548-551) resolve the task without
`bar.increment()`.  (2) Concurrency 1 — one pooled worker, worker `0`,
serving both tasks — over two readable tasks finishes with the counter at
`3`, not `2`: `worker.on('message', ...)` (schemafinder.js:516) leaves the
first task's listener attached, so the second reply fires two listeners and
increments twice (schemafinder.js:526). -/
theorem c8_counter_cex :
    ((runPipeline [(TaskOutcome.readErr, 0)]).counter = 0 ∧
      ([(TaskOutcome.readErr, 0)] : List (TaskOutcome × Nat)).length = 1) ∧
    ((runPipeline [(TaskOutcome.readOk [opA], 0),
        (TaskOutcome.readOk [opB], 0)]).counter = 3 ∧
      ([(TaskOutcome.readOk [opA], 0), (TaskOutcome.readOk [opB], 0)] :
        List (TaskOutcome × Nat)).length = 2) := by decide

/-- C8, amended: a task whose content cannot be read resolves without
firing a listener, so it contributes nothing to the aggregate and never
advances the progress counter, and the run continues; a readable task's
reply advances the counter once per listener accumulated on its worker —
one per task previously assigned to that worker, the handler at
schemafinder.js:516 never being removed — so the counter is at least the
number of readable tasks and equals it exactly when no worker serves two
tasks, while the aggregate is unaffected by the repeated merges (the
guarded insert is idempotent) and always equals that of the readable
replies alone. -/
theorem c8_counter_per_listener :
    (∀ sched : List (TaskOutcome × Nat),
      (runPipeline sched).ops = aggregate (readResults sched)) ∧
    (∀ sched : List (TaskOutcome × Nat),
      sched.countP (fun tw => taskIsOk tw.1) ≤ (runPipeline sched).counter) ∧
    (∀ sched : List (TaskOutcome × Nat),
      (sched.map Prod.snd).Nodup →
      (runPipeline sched).counter =
        sched.countP (fun tw => taskIsOk tw.1)) := by
  refine ⟨fun sched => ?_, fun sched => ?_, fun sched hnd => ?_⟩
  · exact runPipeline_ops_fold sched _
  · have h := runPipeline_counter_ge sched
      { listeners := [], ops := [], counter := 0 }
    simpa [runPipeline] using h
  · have h := runPipeline_counter_fresh sched
      { listeners := [], ops := [], counter := 0 }
      (fun w _ => rfl) hnd
    simpa [runPipeline] using h

/-- Witness for the amended C8 at a concrete schedule: one readable and one
unreadable task on distinct workers give a final counter of `1`. -/
theorem c8_counter_per_listener_witness :
    (runPipeline [(TaskOutcome.readOk [opA], 0),
        (TaskOutcome.readErr, 1)]).counter =
      ([(TaskOutcome.readOk [opA], 0), (TaskOutcome.readErr, 1)] :
        List (TaskOutcome × Nat)).countP (fun tw => taskIsOk tw.1) :=
  c8_counter_per_listener.2.2 _ (by decide)


/-! ## Structure of `GQL_PATTERN` matches -/

theorem takeWhile_pred {α : Type} {p : α → Bool} {l : List α} {a : α}
    (h : a ∈ l.takeWhile p) : p a = true := by
  induction l with
  | nil => cases h
  | cons x xs ih =>
    rw [List.takeWhile_cons] at h
    by_cases hp : p x
    · rw [if_pos hp] at h
      cases h with
      | head => exact hp
      | tail _ h2 => exact ih h2
    · rw [if_neg hp] at h
      cases h

theorem matchGqlAt_shape {s : List Char} {m : GqlMatch} {rem : List Char}
    (h : matchGqlAt s = some (m, rem)) :
    ∃ kw ws1 ws2 parens ws3 body,
      kw ∈ gqlKeywords ∧
      m.full = kw ++ ws1 ++ m.name ++ ws2 ++ parens ++ ws3 ++
        '{' :: body ++ ['}'] ∧
      m.name ≠ [] ∧ (∀ c ∈ m.name, isWordChar c = true) ∧
      (∀ c ∈ body, c ≠ '}') ∧
      ws1 ≠ [] ∧ (∀ c ∈ ws1, isWS c = true) := by
  unfold matchGqlAt at h
  cases hkw : stripKw s with
  | none => rw [hkw] at h; exact absurd h (by simp)
  | some kwr =>
    obtain ⟨kw, r1⟩ := kwr
    rw [hkw] at h
    simp only at h
    have hkwmem : kw ∈ gqlKeywords := by
      unfold stripKw at hkw
      cases hf : gqlKeywords.find? (fun k => headMatches k s) with
      | none => rw [hf] at hkw; exact absurd hkw (by simp)
      | some k =>
        rw [hf] at hkw
        have hmem := List.mem_of_find?_eq_some hf
        rw [Option.some.injEq, Prod.mk.injEq] at hkw
        exact hkw.1 ▸ hmem
    split at h
    case _ => exact absurd h (by simp)
    case _ =>
    split at h
    case _ => exact absurd h (by simp)
    case _ =>
    split at h
    case _ => exact absurd h (by simp)
    case _ =>
    rename_i parsedv parens args r5 hparsed
    split at h
    case _ =>
      rename_i x1 b hb
      split at h
      case _ =>
        rename_i x2 rem2 hrem2
        rename_i hws1 hnm
        rw [Option.some.injEq, Prod.ext_iff] at h
        obtain ⟨hm, hrem⟩ := h
        subst hm
        refine ⟨kw, _, _, parens, _, _, hkwmem, rfl, ?_, ?_, ?_, ?_, ?_⟩
        · intro hnil
          rw [List.isEmpty_iff] at hnm
          exact hnm hnil
        · intro c hc
          exact takeWhile_pred hc
        · intro c hc
          have h2 := takeWhile_pred hc
          exact of_decide_eq_true h2
        · intro hnil
          rw [List.isEmpty_iff] at hws1
          exact hws1 hnil
        · intro c hc
          exact takeWhile_pred hc
      case _ => exact absurd h (by simp)
    case _ => exact absurd h (by simp)

theorem gql_full_getLast {s rem : List Char} {m : GqlMatch}
    (h : matchGqlAt s = some (m, rem)) : m.full.getLast? = some '}' := by
  obtain ⟨kw, ws1, ws2, parens, ws3, body, _, hfull, _⟩ := matchGqlAt_shape h
  rw [hfull]
  repeat rw [List.getLast?_append_of_ne_nil _ (by simp)]
  rfl

theorem gql_full_head {s rem : List Char} {m : GqlMatch}
    (h : matchGqlAt s = some (m, rem)) :
    ∃ c, m.full.head? = some c ∧ isWS c = false := by
  obtain ⟨kw, ws1, ws2, parens, ws3, body, hkw, hfull, _⟩ := matchGqlAt_shape h
  have hex : ∃ c cs, kw = c :: cs ∧ isWS c = false := by
    simp only [gqlKeywords, List.mem_cons, List.not_mem_nil, or_false] at hkw
    rcases hkw with h1 | h1 | h1 | h1 <;> rw [h1] <;> exact ⟨_, _, rfl, by decide⟩
  obtain ⟨c, cs, hkc, hcw⟩ := hex
  refine ⟨c, ?_, hcw⟩
  rw [hfull, hkc]
  rfl

theorem trimLeftWS_of_head {l : List Char} {c : Char} (h : l.head? = some c)
    (hc : isWS c = false) : trimLeftWS l = l := by
  cases l with
  | nil => cases h
  | cons a t =>
    injection h with h
    subst h
    simp [trimLeftWS, List.dropWhile_cons, hc]

theorem trimRightWS_of_getLast {l : List Char} {c : Char}
    (h : l.getLast? = some c) (hc : isWS c = false) : trimRightWS l = l := by
  have hr : l.reverse.head? = some c := by rw [List.head?_reverse]; exact h
  cases hrv : l.reverse with
  | nil => rw [hrv] at hr; cases hr
  | cons a t =>
    rw [hrv] at hr
    injection hr with hr
    subst hr
    unfold trimRightWS
    rw [hrv]
    rw [List.dropWhile_cons_of_neg (by rw [hc]; exact Bool.false_ne_true)]
    rw [← hrv, List.reverse_reverse]

/-- Every match that `GQL_PATTERN` produces already ends with a closing
brace, so the repair at schemafinder.js:260-262 never changes it. -/
theorem repairBrace_of_gql {s rem : List Char} {m : GqlMatch}
    (h : matchGqlAt s = some (m, rem)) : repairBrace m.full = m.full := by
  obtain ⟨c, hh, hcw⟩ := gql_full_head h
  have hl := gql_full_getLast h
  have ht : trimWS m.full = m.full := by
    rw [trimWS, trimLeftWS_of_head hh hcw, trimRightWS_of_getLast hl (by decide)]
  rw [repairBrace, ht, hl, if_pos rfl]

theorem gqlMatchAllAux_mem {fuel : Nat} {s : List Char} {m : GqlMatch}
    (h : m ∈ gqlMatchAllAux fuel s) :
    ∃ s' rem, matchGqlAt s' = some (m, rem) := by
  induction fuel generalizing s with
  | zero => cases h
  | succ n ih =>
    have hd : ∀ s' : List Char, gqlMatchAllAux (n + 1) s' =
        match matchGqlAt s' with
        | some (m2, rem2) => m2 :: gqlMatchAllAux n rem2
        | none =>
          match s' with
          | [] => []
          | _ :: rest => gqlMatchAllAux n rest := fun _ => rfl
    rw [hd s] at h
    cases hma : matchGqlAt s with
    | none =>
      rw [hma] at h
      cases s with
      | nil => cases h
      | cons c cs => exact ih h
    | some pr =>
      rw [hma] at h
      cases h with
      | head => exact ⟨s, pr.2, hma⟩
      | tail _ h2 => exact ih h2

theorem gqlMatchAll_mem {s : List Char} {m : GqlMatch}
    (h : m ∈ gqlMatchAll s) : ∃ s' rem, matchGqlAt s' = some (m, rem) :=
  gqlMatchAllAux_mem h

/-! ## Where stored records come from -/

/-- Generic source tracking through a fold of guarded insertions over a pair
state: a surviving entry either was already present or satisfies the
per-element property of some processed element. -/
theorem foldl_source_pair {α : Type}
    (f : (OpsMap × List (List Char)) → α → (OpsMap × List (List Char)))
    (P : α → Op → Prop)
    (hf : ∀ st x sig v, lookupA (f st x).1 sig = some v →
      lookupA st.1 sig = some v ∨ P x v) :
    ∀ (l : List α) (st : OpsMap × List (List Char)) (sig : List Char) (v : Op),
      lookupA (l.foldl f st).1 sig = some v →
      lookupA st.1 sig = some v ∨ ∃ x ∈ l, P x v := by
  intro l
  induction l with
  | nil => intro st sig v h; exact Or.inl h
  | cons x xs ih =>
    intro st sig v h
    rcases ih (f st x) sig v h with h1 | ⟨y, hy, hp⟩
    · rcases hf st x sig v h1 with h2 | hp
      · exact Or.inl h2
      · exact Or.inr ⟨x, List.mem_cons_self x xs, hp⟩
    · exact Or.inr ⟨y, List.mem_cons_of_mem x hy, hp⟩

/-- One `scanStep` stores, if anything, the match verbatim under the name
`extractOperationName(op) || patternName i`. -/
theorem scanStep_source {fp og : List Char} {i : Nat}
    {st : OpsMap × List (List Char)} {t sig : List Char} {v : Op}
    (h : lookupA (scanStep fp og i st t).1 sig = some v) :
    lookupA st.1 sig = some v ∨
      (v.operation = t ∧
       v.name = (extractOperationName t).getD (patternName i)) := by
  unfold scanStep at h
  split at h
  · rcases opsInsert_lookup_cases h with h2 | ⟨_, hv, _⟩
    · exact Or.inl h2
    · subst hv
      exact Or.inr ⟨rfl, rfl⟩
  · exact Or.inl h

/-- Every record the aggressive whole-file scan adds is one of the raw
pattern matches, stored verbatim (no repair of any kind), named by the
extracted name or the pattern placeholder. -/
theorem minifiedScan_source (fp og code : List Char)
    (st : OpsMap × List (List Char)) (sig : List Char) (v : Op)
    (h : lookupA (minifiedWholeFileScan fp og code st).1 sig = some v) :
    lookupA st.1 sig = some v ∨
      ∃ i ∈ ([0, 1, 2, 3] : List Nat), ∃ t ∈ minifiedMatchAll i code,
        v.operation = t ∧
        v.name = (extractOperationName t).getD (patternName i) := by
  unfold minifiedWholeFileScan at h
  refine foldl_source_pair _
    (fun i v => ∃ t ∈ minifiedMatchAll i code,
      v.operation = t ∧
      v.name = (extractOperationName t).getD (patternName i)) ?_ _ st sig v h
  intro st2 i sig2 v2 h2
  exact foldl_source_pair (scanStep fp og i)
    (fun t v => v.operation = t ∧
      v.name = (extractOperationName t).getD (patternName i))
    (fun _ _ _ _ hh => scanStep_source hh) _ st2 sig2 v2 h2

/-- Source tracking through `extractOperation`: a surviving entry either was
present before the call or is the record of one of the standard-pattern
matches: brace-repaired trimmed text, named by the match name. -/
theorem extractOperation_source (fp og text : List Char) (vars : VarMap)
    (m : OpsMap) (sig : List Char) (v : Op)
    (h : lookupA (extractOperation fp og text vars m) sig = some v) :
    lookupA m sig = some v ∨
      ∃ mt ∈ gqlMatchAll text,
        v.operation = trimWS (repairBrace mt.full) ∧ v.name = mt.name := by
  unfold extractOperation at h
  simp only at h
  revert h
  generalize hfv : (gqlMatchAll text).foldl
    (fun vs mt => inferFromArgs vs mt.args) vars = fv
  intro h
  have hgen : ∀ (l : List GqlMatch) (acc : OpsMap),
      l ⊆ gqlMatchAll text →
      lookupA (l.foldl (fun acc2 mt =>
        opsInsert acc2 (normalizeSig (repairBrace mt.full))
          { operation := trimWS (repairBrace mt.full), name := mt.name,
            vars := fv, source := fp, origin := og,
            context := "standard".data }) acc) sig = some v →
      lookupA acc sig = some v ∨
        ∃ mt ∈ gqlMatchAll text,
          v.operation = trimWS (repairBrace mt.full) ∧ v.name = mt.name := by
    intro l
    induction l with
    | nil => intro acc _ hl; exact Or.inl hl
    | cons mt rest ih =>
      intro acc hsub hl
      rcases ih _ (fun x hx => hsub (List.mem_cons_of_mem mt hx)) hl with
        h1 | h1
      · rcases opsInsert_lookup_cases h1 with h2 | ⟨_, hv, _⟩
        · exact Or.inl h2
        · subst hv
          exact Or.inr ⟨mt, hsub (List.mem_cons_self mt rest), rfl, rfl⟩
      · exact Or.inr h1
  exact hgen (gqlMatchAll text) m (fun x hx => hx) h

/-! ## C4: parse failure is not fatal, the comment scan result survives -/

/-- C4: for every parse outcome (including parse failure) and detection mode,
the worker result still contains every entry the comment scan produced; in
particular, for a syntactically invalid source containing the comment
`/* query Foo { id } */`, the result set contains the operation named
`Foo`. -/
theorem c4_comment_scan_survives_parse_failure :
    (∀ (fp og code : List Char) (aggr : Bool) (po : ParseOutcome)
        (sig : List Char) (v : Op),
        lookupA (extractFromComments fp og code []) sig = some v →
        lookupA (workerProcess fp og code aggr po) sig = some v) ∧
    ∀ (aggr : Bool) (po : ParseOutcome),
      lookupA (workerProcess "bad.js".data "bad.js".data invalidSrc aggr po)
        fooSig = some fooOp ∧ fooOp.name = "Foo".data := by
  constructor
  · intro fp og code aggr po sig v h
    exact workerProcess_pres h
  · intro aggr po
    exact ⟨workerProcess_pres (by decide), rfl⟩

/-- Witness: the concrete invalid source, with a failed parse and default
mode, still yields the `Foo` record. -/
theorem c4_comment_scan_survives_witness :
    lookupA (workerProcess "bad.js".data "bad.js".data invalidSrc false none)
      fooSig = some fooOp :=
  c4_comment_scan_survives_parse_failure.1 "bad.js".data "bad.js".data
    invalidSrc false none fooSig fooOp (by decide)

/-! ## C5: no repair on pattern-3/4/5 matches -/

/-- C5, counterexample: the aggressive whole-file scan of `minifiedSrc`
stores the quoted-span match verbatim: the stored `rawText` ends with a
quote, not with a closing brace, and no entry for the brace-appended text
exists. -/
theorem c5_no_repair_cex :
    (lookupA (minifiedWholeFileScan "m.js".data "m.js".data minifiedSrc
        ([], [])).1 (normalizeSig quotedMatch)).map Op.operation =
      some quotedMatch ∧
    quotedMatch.getLast? = some '"' ∧
    lookupA (minifiedWholeFileScan "m.js".data "m.js".data minifiedSrc
        ([], [])).1 (normalizeSig (quotedMatch ++ ['}'])) = none := by
  decide

/-- C5, amended: pattern-3/4/5 matches are stored verbatim as `rawText`,
with no closing brace appended; the brace-repair step exists only in
`extractOperation`, where it never fires because every standard-pattern
match already ends with a closing brace. -/
theorem c5_minified_verbatim_and_repair_dead :
    (∀ (fp og code : List Char) (st : OpsMap × List (List Char))
        (sig : List Char) (v : Op),
        lookupA (minifiedWholeFileScan fp og code st).1 sig = some v →
        lookupA st.1 sig = some v ∨
          ∃ i ∈ ([0, 1, 2, 3] : List Nat),
            v.operation ∈ minifiedMatchAll i code) ∧
    ∀ (text : List Char), ∀ mt ∈ gqlMatchAll text,
      repairBrace mt.full = mt.full := by
  constructor
  · intro fp og code st sig v h
    rcases minifiedScan_source fp og code st sig v h with h1 | ⟨i, hi, t, ht, hop, _⟩
    · exact Or.inl h1
    · exact Or.inr ⟨i, hi, hop ▸ ht⟩
  · intro text mt hmt
    obtain ⟨s', rem, hm⟩ := gqlMatchAll_mem hmt
    exact repairBrace_of_gql hm

/-- Witness: the quoted-span record of `minifiedSrc` is accounted for by the
amended statement. -/
theorem c5_minified_verbatim_witness :
    lookupA (([] : OpsMap), ([] : List (List Char))).1
        (normalizeSig quotedMatch) = some quotedOp ∨
      ∃ i ∈ ([0, 1, 2, 3] : List Nat),
        quotedOp.operation ∈ minifiedMatchAll i minifiedSrc :=
  c5_minified_verbatim_and_repair_dead.1 "m.js".data "m.js".data minifiedSrc
    ([], []) (normalizeSig quotedMatch) quotedOp (by decide)

/-! ## C7: the standard pattern body is lazy, not balanced -/

/-- C7, counterexample: on `query Foo { a { b } }` the standard pattern
stops at the first closing brace: the stored `rawText` is the truncated
`query Foo { a { b }`, not the balanced body, and no entry for the full
balanced text exists. -/
theorem c7_balanced_body_cex :
    (gqlMatchAll nestedSrc).map GqlMatch.full =
      [truncatedNested] ∧
    (lookupA (extractOperation "f.js".data "f.js".data nestedSrc [] [])
        truncatedNested).map Op.operation =
      some truncatedNested ∧
    truncatedNested ≠ nestedSrc ∧
    lookupA (extractOperation "f.js".data "f.js".data nestedSrc [] [])
        (normalizeSig nestedSrc) = none := by
  decide

/-- C7, amended: a standard-pattern match extends from the opening brace to
the first closing brace after it (the body is matched lazily and contains no
closing brace), so nested bodies are truncated at their first inner `}`. -/
theorem c7_standard_body_stops_at_first_brace (s : List Char) (m : GqlMatch)
    (rem : List Char) (h : matchGqlAt s = some (m, rem)) :
    ∃ pre body, m.full = pre ++ '{' :: body ++ ['}'] ∧
      ∀ c ∈ body, c ≠ '}' := by
  obtain ⟨kw, ws1, ws2, parens, ws3, body, _, hfull, _, _, hbody, _⟩ :=
    matchGqlAt_shape h
  refine ⟨kw ++ ws1 ++ m.name ++ ws2 ++ parens ++ ws3, body, ?_, hbody⟩
  rw [hfull]

/-- Witness: the amended statement applied to the nested-body example. -/
theorem c7_standard_body_witness :
    ∃ pre body,
      ({ full := truncatedNested, name := "Foo".data,
         args := none } : GqlMatch).full = pre ++ '{' :: body ++ ['}'] ∧
      ∀ c ∈ body, c ≠ '}' :=
  c7_standard_body_stops_at_first_brace nestedSrc
    { full := truncatedNested, name := "Foo".data, args := none }
    (nestedSrc.drop 19) (by decide)

/-! ## C9: the shared variables object is mutated after insertion -/

/-- C9, counterexample: in one `extractOperation` call over two operations,
the record inserted first is observed with the variable inferred from the
second operation as well: its `variables` field is not the mapping it was
created with (compare `extractOperationSnapshot`, which realizes the claimed
no-mutation-after-creation semantics). -/
theorem c9_shared_variables_cex :
    (lookupA (extractOperation "f.js".data "f.js".data twoOpsSrc [] [])
        "query A($x: Int) { a }".data).map Op.vars =
      some [("$x".data, JsVal.vNum 0),
            ("$y".data, JsVal.vStr "sample-string".data)] ∧
    (lookupA (extractOperationSnapshot "f.js".data "f.js".data twoOpsSrc
        [] []) "query A($x: Int) { a }".data).map Op.vars =
      some [("$x".data, JsVal.vNum 0)] ∧
    ([("$x".data, JsVal.vNum 0),
      ("$y".data, JsVal.vStr "sample-string".data)] : VarMap) ≠
      [("$x".data, JsVal.vNum 0)] := by
  decide

/-- C9, amended: map entries are never replaced or removed once inserted
(the key set only grows and the stored record for a key is stable), but the
`variables` object is shared by all records of one `extractOperation` call,
so later matches of the same call can add entries to an already-inserted
record's mapping. -/
theorem c9_entries_never_replaced (fp og text : List Char) (vars : VarMap)
    (m : OpsMap) (sig : List Char) (v : Op)
    (h : lookupA m sig = some v) :
    lookupA (extractOperation fp og text vars m) sig = some v :=
  extractOperation_pres h

/-- Witness: an existing entry survives an `extractOperation` call over new
text. -/
theorem c9_entries_never_replaced_witness :
    lookupA (extractOperation "f.js".data "f.js".data twoOpsSrc []
      [(fooSig, fooOp)]) fooSig = some fooOp :=
  c9_entries_never_replaced "f.js".data "f.js".data twoOpsSrc []
    [(fooSig, fooOp)] fooSig fooOp (by decide)

/-! ## C10: names of extracted operations -/

/-- C10, counterexample: an anonymous operation (keyword with no following
identifier) is not extracted at all: the worker result for
`/* query { id } */` is empty in both standard and aggressive mode, so no
placeholder-named record exists. -/
theorem c10_anonymous_not_extracted_cex :
    workerProcess "a.js".data "a.js".data anonSrc true (some []) = [] ∧
    workerProcess "a.js".data "a.js".data anonSrc false none = [] ∧
    gqlMatchAll "query { id }".data = [] := by
  decide

/-- C10, amended: the standard pattern requires a declared identifier, so
standard-pattern records always carry it as a nonempty name; anonymous
operations can only be picked up by the aggressive minified patterns (above
their length thresholds), which assign a generated placeholder name; in
particular the long anonymous operation `anonLongSrc` is stored by the
whole-file scan under the name `Pattern0_Operation`. -/
theorem c10_names_nonempty :
    (∀ (text : List Char), ∀ mt ∈ gqlMatchAll text,
      mt.name ≠ [] ∧ ∀ c ∈ mt.name, isWordChar c = true) ∧
    (∀ (fp og text : List Char) (vars : VarMap) (m : OpsMap)
        (sig : List Char) (v : Op),
        lookupA (extractOperation fp og text vars m) sig = some v →
        lookupA m sig = some v ∨
          ∃ mt ∈ gqlMatchAll text, v.name = mt.name ∧ mt.name ≠ []) ∧
    (lookupA (minifiedWholeFileScan "a.js".data "a.js".data anonLongSrc
        ([], [])).1 (normalizeSig anonLongSrc)).map Op.name =
      some "Pattern0_Operation".data := by
  refine ⟨?_, ?_, by decide⟩
  · intro text mt hmt
    obtain ⟨s', rem, hm⟩ := gqlMatchAll_mem hmt
    obtain ⟨_, _, _, _, _, _, _, _, hname, hword, _⟩ := matchGqlAt_shape hm
    exact ⟨hname, hword⟩
  · intro fp og text vars m sig v h
    rcases extractOperation_source fp og text vars m sig v h with h1 | ⟨mt, hmt, _, hn⟩
    · exact Or.inl h1
    · obtain ⟨s', rem, hm⟩ := gqlMatchAll_mem hmt
      obtain ⟨_, _, _, _, _, _, _, _, hname, _⟩ := matchGqlAt_shape hm
      exact Or.inr ⟨mt, hmt, hn, hname⟩

/-- Witness: the name facts applied to the concrete standard match of
`fooSig`. -/
theorem c10_names_nonempty_witness :
    ({ full := "query Foo { id }".data, name := "Foo".data,
       args := none } : GqlMatch).name ≠ [] :=
  (c10_names_nonempty.1 "query Foo { id }".data
    { full := "query Foo { id }".data, name := "Foo".data, args := none }
    (by decide)).1

/-! ## C6: placeholder inference by the type-name heuristic -/

theorem varLookup_varSet_self (vs : VarMap) (k : List Char) (v : JsVal) :
    varLookup (varSet vs k v) k = some v := by
  induction vs with
  | nil => simp [varSet, varLookup]
  | cons p rest ih =>
    obtain ⟨a, b⟩ := p
    by_cases h : a = k
    · simp [varSet, varLookup, h]
    · simp [varSet, varLookup, h, ih]

/-- C6: an argument-list entry `name: Type` whose name is not yet bound in
the variables mapping receives the type-name-heuristic placeholder; the
heuristic is, in order: contains `String` yields the sample string, `Int` or
`Float` yields zero, `Boolean` yields false, `ID` yields the sample
identifier, a list bracket yields the empty sequence, anything else null;
and on `id: String!, count: Int` the inference deterministically yields the
claimed mapping. -/
theorem c6_type_name_heuristic :
    (∀ (vs : VarMap) (arg vn vt : List Char) (rest : List (List Char)),
        (splitOnChar ':' arg).map trimWS = vn :: vt :: rest →
        vn ≠ [] → vt ≠ [] → varLookup vs vn = none →
        varLookup (inferArgStep vs arg) vn = some (getDefaultValue vt)) ∧
    (∀ ty : List Char,
      (containsSub ty "String".data = true →
        getDefaultValue ty = .vStr "sample-string".data) ∧
      (containsSub ty "String".data = false →
        (containsSub ty "Int".data || containsSub ty "Float".data) = true →
        getDefaultValue ty = .vNum 0) ∧
      (containsSub ty "String".data = false →
        (containsSub ty "Int".data || containsSub ty "Float".data) = false →
        containsSub ty "Boolean".data = true →
        getDefaultValue ty = .vBool false) ∧
      (containsSub ty "String".data = false →
        (containsSub ty "Int".data || containsSub ty "Float".data) = false →
        containsSub ty "Boolean".data = false →
        containsSub ty "ID".data = true →
        getDefaultValue ty = .vStr "123".data) ∧
      (containsSub ty "String".data = false →
        (containsSub ty "Int".data || containsSub ty "Float".data) = false →
        containsSub ty "Boolean".data = false →
        containsSub ty "ID".data = false →
        ty.contains '[' = true → getDefaultValue ty = .vEmptyArr) ∧
      (containsSub ty "String".data = false →
        (containsSub ty "Int".data || containsSub ty "Float".data) = false →
        containsSub ty "Boolean".data = false →
        containsSub ty "ID".data = false →
        ty.contains '[' = false → getDefaultValue ty = .vNull)) ∧
    inferFromArgs [] (some "id: String!, count: Int".data) =
      [("id".data, JsVal.vStr "sample-string".data),
       ("count".data, JsVal.vNum 0)] := by
  refine ⟨?_, ?_, by decide⟩
  · intro vs arg vn vt rest hsplit hvn hvt hnone
    unfold inferArgStep
    rw [hsplit]
    have h1 : vn.isEmpty = false := by
      cases vn with
      | nil => exact absurd rfl hvn
      | cons c cs => rfl
    have h2 : vt.isEmpty = false := by
      cases vt with
      | nil => exact absurd rfl hvt
      | cons c cs => rfl
    have h3 : falsyAt vs vn = true := by
      unfold falsyAt
      rw [hnone]
    simp only
    rw [if_pos (by rw [h1, h2, h3]; rfl)]
    exact varLookup_varSet_self vs vn (getDefaultValue vt)
  · intro ty
    refine ⟨?_, ?_, ?_, ?_, ?_, ?_⟩
    · intro h1
      unfold getDefaultValue
      rw [h1]
      rfl
    · intro h1 h2
      unfold getDefaultValue
      rw [h1, h2]
      rfl
    · intro h1 h2 h3
      unfold getDefaultValue
      rw [h1, h2, h3]
      rfl
    · intro h1 h2 h3 h4
      unfold getDefaultValue
      rw [h1, h2, h3, h4]
      rfl
    · intro h1 h2 h3 h4 h5
      unfold getDefaultValue
      rw [h1, h2, h3, h4, h5]
      rfl
    · intro h1 h2 h3 h4 h5
      unfold getDefaultValue
      rw [h1, h2, h3, h4, h5]
      rfl

/-- Witness: a fresh `Boolean` argument receives its heuristic value. -/
theorem c6_type_name_heuristic_witness :
    varLookup (inferArgStep [] "x: Boolean".data) "x".data =
      some (getDefaultValue "Boolean".data) :=
  c6_type_name_heuristic.1 [] "x: Boolean".data "x".data "Boolean".data []
    (by decide) (by decide) (by decide) rfl

/-! ## C3: the normalizer collapses whitespace runs and is idempotent -/

theorem collapse_nws {c : Char} (cs : List Char) (hc : isWS c = false) :
    collapseWS (c :: cs) = c :: collapseWS cs := by
  show wsStep c (collapseWS cs) = c :: collapseWS cs
  unfold wsStep
  rw [hc]
  rfl

theorem collapse_ws {c : Char} (cs : List Char) (hc : isWS c = true) :
    collapseWS (c :: cs) =
      match collapseWS cs with
      | ' ' :: r => ' ' :: r
      | x => ' ' :: x := by
  show wsStep c (collapseWS cs) = _
  unfold wsStep
  rw [hc]
  simp only [if_true]
  cases hx : collapseWS cs with
  | nil => rfl
  | cons a r =>
    by_cases ha : a = ' '
    · subst ha; rfl
    · cases a
      simp_all

theorem collapse_invariant (l : List Char) :
    (∀ x ∈ collapseWS l, isWS x = true → x = ' ') ∧
    List.Chain' (fun a b => isWS a = true → isWS b = false) (collapseWS l) := by
  induction l with
  | nil => exact ⟨(fun x hx => nomatch hx), List.chain'_nil⟩
  | cons c cs ih =>
    obtain ⟨ih1, ih2⟩ := ih
    by_cases hc : isWS c
    · rw [collapse_ws cs hc]
      cases hx : collapseWS cs with
      | nil =>
        refine ⟨?_, ?_⟩
        · intro x hxm _
          cases hxm with
          | head => rfl
          | tail _ h2 => cases h2
        · exact List.chain'_singleton _
      | cons a r =>
        rw [hx] at ih1 ih2
        by_cases ha : a = ' '
        · subst ha
          simp only
          exact ⟨ih1, ih2⟩
        · have hred :
              (match a :: r with
              | ' ' :: r => ' ' :: r
              | x => ' ' :: x) = ' ' :: a :: r := by
            cases a
            simp_all
          rw [hred]
          refine ⟨?_, ?_⟩
          · intro x hxm hw
            cases hxm with
            | head => rfl
            | tail _ h2 => exact ih1 x h2 hw
          · refine List.Chain'.cons' ih2 ?_
            intro y hy _
            simp only [List.head?] at hy
            injection hy with hy
            subst hy
            by_cases hwa : isWS a
            · exact absurd (ih1 a (List.mem_cons_self a r) hwa) ha
            · exact eq_false_of_ne_true hwa
    · have hc' : isWS c = false := eq_false_of_ne_true hc
      rw [collapse_nws cs hc']
      refine ⟨?_, ?_⟩
      · intro x hxm hw
        cases hxm with
        | head => rw [hw] at hc'; cases hc'
        | tail _ h2 => exact ih1 x h2 hw
      · refine List.Chain'.cons' ih2 ?_
        intro y hy hcw
        rw [hcw] at hc'
        cases hc'

theorem collapse_ws_head {d : Char} (t : List Char) (hd : isWS d = true) :
    ∃ m, collapseWS (d :: t) = ' ' :: m ∧
      (m = [] ∨ ∃ e es, m = e :: es ∧ isWS e = false) := by
  obtain ⟨inv1, inv2⟩ := collapse_invariant t
  rw [collapse_ws t hd]
  cases hx : collapseWS t with
  | nil => exact ⟨[], rfl, Or.inl rfl⟩
  | cons a r =>
    rw [hx] at inv1 inv2
    by_cases ha : a = ' '
    · subst ha
      refine ⟨r, rfl, ?_⟩
      cases r with
      | nil => exact Or.inl rfl
      | cons e es =>
        refine Or.inr ⟨e, es, rfl, ?_⟩
        rw [List.chain'_cons] at inv2
        exact inv2.1 (by decide)
    · have hred :
          (match a :: r with
          | ' ' :: r => ' ' :: r
          | x => ' ' :: x) = ' ' :: a :: r := by
        cases a
        simp_all
      rw [hred]
      refine ⟨a :: r, rfl, Or.inr ⟨a, r, rfl, ?_⟩⟩
      by_cases hwa : isWS a
      · exact absurd (inv1 a (List.mem_cons_self a r) hwa) ha
      · exact eq_false_of_ne_true hwa

theorem dropWhile_of_head_shape {m : List Char}
    (h : m = [] ∨ ∃ e es, m = e :: es ∧ isWS e = false) :
    List.dropWhile isWS m = m := by
  rcases h with h | ⟨e, es, he, hw⟩
  · rw [h]; rfl
  · rw [he, List.dropWhile_cons_of_neg (by rw [hw]; exact Bool.false_ne_true)]

theorem trimLeft_collapse_ws {c : Char} (cs : List Char) (hc : isWS c = true) :
    trimLeftWS (collapseWS (c :: cs)) = trimLeftWS (collapseWS cs) := by
  rw [collapse_ws cs hc]
  cases hx : collapseWS cs with
  | nil =>
    show trimLeftWS [' '] = trimLeftWS []
    rfl
  | cons a r =>
    by_cases ha : a = ' '
    · subst ha; rfl
    · have hred :
          (match a :: r with
          | ' ' :: r => ' ' :: r
          | x => ' ' :: x) = ' ' :: a :: r := by
        cases a
        simp_all
      rw [hred]
      show List.dropWhile isWS (' ' :: a :: r) = List.dropWhile isWS (a :: r)
      rw [List.dropWhile_cons_of_pos (by decide)]

theorem dropWhile_append_ne {p : Char → Bool} {u : List Char}
    (v : List Char) (h : u.dropWhile p ≠ []) :
    (u ++ v).dropWhile p = u.dropWhile p ++ v := by
  induction u with
  | nil => exact absurd rfl h
  | cons x xs ih =>
    by_cases hx : p x
    · rw [List.cons_append, List.dropWhile_cons_of_pos hx,
        List.dropWhile_cons_of_pos hx]
      rw [List.dropWhile_cons_of_pos hx] at h
      exact ih h
    · rw [List.cons_append, List.dropWhile_cons_of_neg hx,
        List.dropWhile_cons_of_neg hx]
      rfl

theorem dropWhile_append_all {p : Char → Bool} {u : List Char}
    (v : List Char) (h : ∀ x ∈ u, p x = true) :
    (u ++ v).dropWhile p = v.dropWhile p := by
  induction u with
  | nil => rfl
  | cons x xs ih =>
    rw [List.cons_append, List.dropWhile_cons_of_pos
      (h x (List.mem_cons_self x xs))]
    exact ih (fun y hy => h y (List.mem_cons_of_mem x hy))

theorem trimRight_cons {x : Char} {xs : List Char}
    (h : trimRightWS xs ≠ []) : trimRightWS (x :: xs) = x :: trimRightWS xs := by
  unfold trimRightWS at h ⊢
  have hne : xs.reverse.dropWhile isWS ≠ [] := by
    intro hc
    rw [hc] at h
    exact h rfl
  rw [List.reverse_cons, dropWhile_append_ne [x] hne, List.reverse_append]
  rfl

theorem trimRight_nil_iff (m : List Char) :
    trimRightWS m = [] ↔ ∀ x ∈ m, isWS x = true := by
  unfold trimRightWS
  rw [List.reverse_eq_nil_iff, List.dropWhile_eq_nil_iff]
  constructor
  · intro h x hx
    exact h x (List.mem_reverse.mpr hx)
  · intro h x hx
    exact h x (List.mem_reverse.mp hx)

theorem trimRight_append_allws {a b : List Char}
    (h : ∀ x ∈ b, isWS x = true) : trimRightWS (a ++ b) = trimRightWS a := by
  unfold trimRightWS
  rw [List.reverse_append, dropWhile_append_all a.reverse
    (fun x hx => h x (List.mem_reverse.mp hx))]

theorem trimRight_singleton {c : Char} (hc : isWS c = false) :
    trimRightWS [c] = [c] := by
  unfold trimRightWS
  rw [List.reverse_singleton,
    List.dropWhile_cons_of_neg (by rw [hc]; exact Bool.false_ne_true)]
  rfl

/-! Lemmas about the word decomposition. -/

theorem words_ws {c : Char} (cs : List Char) (hc : isWS c = true) :
    words (c :: cs) = words cs := by
  simp [words, hc]

theorem words_nonws_wsnext {c d : Char} (t : List Char) (hc : isWS c = false)
    (hd : isWS d = true) : words (c :: d :: t) = [c] :: words (d :: t) := by
  conv_lhs => rw [words]
  rw [hc, hd]
  simp

theorem words_singleton {c : Char} (hc : isWS c = false) : words [c] = [[c]] := by
  unfold words
  rw [hc]
  simp

theorem words_ne_nil_of_head_nonws {d : Char} (t : List Char)
    (hd : isWS d = false) : words (d :: t) ≠ [] := by
  unfold words
  rw [hd]
  simp only [Bool.false_eq_true, if_false]
  cases t with
  | nil => simp
  | cons e u =>
    simp only
    by_cases he : isWS e
    · simp [he]
    · have he' : isWS e = false := eq_false_of_ne_true he
      rw [he']
      simp only [Bool.false_eq_true, if_false]
      cases hws : words (e :: u) with
      | nil => simp
      | cons w rest => simp

theorem words_nonws_nonwsnext {c d : Char} (t : List Char)
    {w : List Char} {rest : List (List Char)} (hc : isWS c = false)
    (hd : isWS d = false) (hw : words (d :: t) = w :: rest) :
    words (c :: d :: t) = (c :: w) :: rest := by
  conv_lhs => rw [words]
  rw [hc]
  simp only [Bool.false_eq_true, if_false]
  rw [hw]
  simp [hd]

theorem words_wf (l : List Char) :
    ∀ w ∈ words l, w ≠ [] ∧ ∀ x ∈ w, isWS x = false := by
  induction l with
  | nil => intro w hw; cases hw
  | cons c cs ih =>
    by_cases hc : isWS c
    · rw [words_ws cs hc]
      exact ih
    · have hc' : isWS c = false := eq_false_of_ne_true hc
      cases cs with
      | nil =>
        rw [show ([c] : List Char) = [c] from rfl, words_singleton hc']
        intro w hw
        cases hw with
        | head =>
          refine ⟨by simp, ?_⟩
          intro x hx
          cases hx with
          | head => exact hc'
          | tail _ h2 => cases h2
        | tail _ h2 => cases h2
      | cons d t =>
        by_cases hd : isWS d
        · rw [words_nonws_wsnext t hc' hd]
          intro w hw
          cases hw with
          | head =>
            refine ⟨by simp, ?_⟩
            intro x hx
            cases hx with
            | head => exact hc'
            | tail _ h2 => cases h2
          | tail _ h2 => exact ih w h2
        · have hd' : isWS d = false := eq_false_of_ne_true hd
          cases hws : words (d :: t) with
          | nil => exact absurd hws (words_ne_nil_of_head_nonws t hd')
          | cons w0 rest =>
            rw [words_nonws_nonwsnext t hc' hd' hws]
            intro w hw
            cases hw with
            | head =>
              have h0 := ih w0 (hws ▸ List.mem_cons_self w0 rest)
              refine ⟨by simp, ?_⟩
              intro x hx
              cases hx with
              | head => exact hc'
              | tail _ h2 => exact h0.2 x h2
            | tail _ h2 =>
              exact ih w (hws ▸ List.mem_cons_of_mem w0 h2)

theorem spaceJoin_ne_nil {w : List Char} {ws : List (List Char)}
    (hw : w ≠ []) : spaceJoin (w :: ws) ≠ [] := by
  cases ws with
  | nil => exact hw
  | cons w2 ws2 =>
    show w ++ ' ' :: spaceJoin (w2 :: ws2) ≠ []
    simp

theorem spaceJoin_cons_cons (c : Char) (w : List Char)
    (rest : List (List Char)) :
    spaceJoin ((c :: w) :: rest) = c :: spaceJoin (w :: rest) := by
  cases rest with
  | nil => rfl
  | cons w2 ws2 => rfl

/-- The normalizer equals the single-space join of the whitespace-free runs:
it collapses every whitespace run (newlines included) to one space and trims
both ends. -/
theorem normalize_eq_words (l : List Char) :
    normalizeSig l = spaceJoin (words l) := by
  induction l with
  | nil => rfl
  | cons c cs ih =>
    by_cases hc : isWS c
    · rw [words_ws cs hc]
      show trimRightWS (trimLeftWS (collapseWS (c :: cs))) = _
      rw [trimLeft_collapse_ws cs hc]
      exact ih
    · have hc' : isWS c = false := eq_false_of_ne_true hc
      show trimRightWS (trimLeftWS (collapseWS (c :: cs))) = _
      rw [collapse_nws cs hc']
      rw [show trimLeftWS (c :: collapseWS cs) = c :: collapseWS cs from
        List.dropWhile_cons_of_neg (by rw [hc']; exact Bool.false_ne_true)]
      cases cs with
      | nil =>
        show trimRightWS [c] = spaceJoin (words [c])
        rw [trimRight_singleton hc', words_singleton hc']
        rfl
      | cons d t =>
        by_cases hd : isWS d
        · rw [words_nonws_wsnext t hc' hd]
          obtain ⟨m, hm, hms⟩ := collapse_ws_head t hd
          have hihm : trimRightWS m = spaceJoin (words (d :: t)) := by
            have : normalizeSig (d :: t) = spaceJoin (words (d :: t)) := ih
            unfold normalizeSig trimWS at this
            rw [hm] at this
            rw [show trimLeftWS (' ' :: m) = m by
              unfold trimLeftWS
              rw [List.dropWhile_cons_of_pos (by decide)]
              exact dropWhile_of_head_shape hms] at this
            exact this
          rw [hm]
          cases hws : words (d :: t) with
          | nil =>
            have hnil : trimRightWS m = [] := by rw [hihm, hws]; rfl
            rw [trimRight_nil_iff] at hnil
            have : trimRightWS (c :: ' ' :: m) = trimRightWS [c] := by
              have := trimRight_append_allws (a := [c]) (b := ' ' :: m) ?_
              · exact this
              · intro x hx
                cases hx with
                | head => decide
                | tail _ h2 => exact hnil x h2
            rw [this, trimRight_singleton hc']
            rfl
          | cons w0 rest =>
            have hw0 : w0 ≠ [] :=
              (words_wf (d :: t) w0 (hws ▸ List.mem_cons_self w0 rest)).1
            have hne : trimRightWS m ≠ [] := by
              rw [hihm, hws]
              exact spaceJoin_ne_nil hw0
            rw [trimRight_cons (by
              rw [trimRight_cons hne]
              simp), trimRight_cons hne, hihm, hws]
            rfl
        · have hd' : isWS d = false := eq_false_of_ne_true hd
          cases hws : words (d :: t) with
          | nil => exact absurd hws (words_ne_nil_of_head_nonws t hd')
          | cons w0 rest =>
            rw [words_nonws_nonwsnext t hc' hd' hws,
              spaceJoin_cons_cons c w0 rest]
            have hihm : trimRightWS (collapseWS (d :: t)) =
                spaceJoin (words (d :: t)) := by
              have : normalizeSig (d :: t) = spaceJoin (words (d :: t)) := ih
              unfold normalizeSig trimWS at this
              rw [collapse_nws t hd'] at this
              rw [show trimLeftWS (d :: collapseWS t) = d :: collapseWS t from
                List.dropWhile_cons_of_neg
                  (by rw [hd']; exact Bool.false_ne_true)] at this
              rw [← collapse_nws t hd'] at this
              exact this
            have hw0 : w0 ≠ [] :=
              (words_wf (d :: t) w0 (hws ▸ List.mem_cons_self w0 rest)).1
            have hne : trimRightWS (collapseWS (d :: t)) ≠ [] := by
              rw [hihm, hws]
              exact spaceJoin_ne_nil hw0
            rw [trimRight_cons hne, hihm, hws]

theorem words_all_nonws {w : List Char} (hw : w ≠ [])
    (hnw : ∀ x ∈ w, isWS x = false) : words w = [w] := by
  induction w with
  | nil => exact absurd rfl hw
  | cons a t ih =>
    have ha : isWS a = false := hnw a (List.mem_cons_self a t)
    cases t with
    | nil =>
      unfold words
      rw [ha]
      rfl
    | cons b u =>
      have hb : isWS b = false := hnw b (List.mem_cons_of_mem a
        (List.mem_cons_self b u))
      have ht : words (b :: u) = [b :: u] := ih (by simp)
        (fun x hx => hnw x (List.mem_cons_of_mem a hx))
      exact words_nonws_nonwsnext u ha hb ht

theorem words_prepend {w : List Char} (r : List Char) (hw : w ≠ [])
    (hnw : ∀ x ∈ w, isWS x = false) :
    words (w ++ ' ' :: r) = w :: words r := by
  induction w with
  | nil => exact absurd rfl hw
  | cons a t ih =>
    have ha : isWS a = false := hnw a (List.mem_cons_self a t)
    cases t with
    | nil =>
      show words (a :: ' ' :: r) = [a] :: words r
      rw [words_nonws_wsnext r ha (by decide), words_ws r (by decide)]
    | cons b u =>
      have hb : isWS b = false := hnw b (List.mem_cons_of_mem a
        (List.mem_cons_self b u))
      have ht : words ((b :: u) ++ ' ' :: r) = (b :: u) :: words r :=
        ih (by simp) (fun x hx => hnw x (List.mem_cons_of_mem a hx))
      rw [List.cons_append] at ht
      show words (a :: ((b :: u) ++ ' ' :: r)) = _
      rw [List.cons_append, words_nonws_nonwsnext (u ++ ' ' :: r) ha hb ht]

theorem words_spaceJoin {ws : List (List Char)}
    (h : ∀ w ∈ ws, w ≠ [] ∧ ∀ x ∈ w, isWS x = false) :
    words (spaceJoin ws) = ws := by
  induction ws with
  | nil => rfl
  | cons w ws2 ih =>
    obtain ⟨hw, hnw⟩ := h w (List.mem_cons_self w ws2)
    cases ws2 with
    | nil => exact words_all_nonws hw hnw
    | cons w2 ws3 =>
      show words (w ++ ' ' :: spaceJoin (w2 :: ws3)) = _
      rw [words_prepend _ hw hnw,
        ih (fun x hx => h x (List.mem_cons_of_mem w hx))]

/-- C3: the signature normalizer collapses every whitespace run (newlines
included, since the newline is in its whitespace class) to one space and
trims both ends (it equals the single-space join of the whitespace-free
runs), and it is idempotent. -/
theorem c3_normalize_collapses_and_idempotent :
    (∀ l : List Char, normalizeSig l = spaceJoin (words l)) ∧
    (isWS '\n' = true ∧ isWS '\t' = true ∧ isWS '\r' = true) ∧
    ∀ l : List Char, normalizeSig (normalizeSig l) = normalizeSig l := by
  refine ⟨normalize_eq_words, by decide, ?_⟩
  intro l
  rw [normalize_eq_words l, normalize_eq_words (spaceJoin (words l)),
    words_spaceJoin (words_wf l)]

end SchemaFinder
